import Mathlib

/-!
Verification of the Mario Trap Avoidance engine
(`mario_engine.py` / `app.py`, repository Ayush-khelwal2003/AI-project).

The Python engine is shallowly embedded: grids are lists of lists of cell
codes, positions are pairs of integers, the mutable search state of
`a_star_search` is threaded explicitly, dictionaries become association
lists (first match wins, update by prepending), the `heapq` frontier
becomes a list from which a lexicographically least element is popped, and
the two `while` loops (trap placement and the search loop) receive explicit
fuel together with proofs that the chosen fuel never runs out.
-/

set_option maxHeartbeats 1000000

namespace MarioTrapAvoidance

/-- A cell coordinate `(x, y)`, as in the Python tuples. -/
abbrev Pos := Int × Int

/-- A grid: `self.grid` is a list of rows, each row a list of cell codes. -/
abbrev Grid := List (List Nat)

/-- Cell code for a freely traversable cell (`EMPTY = 0`). -/
def EMPTY : Nat := 0

/-- Cell code for an impassable trap (`TRAP = 1`). -/
def TRAP : Nat := 1

/-- Cell code for a penalized cell next to a trap (`DANGEROUS = 2`). -/
def DANGEROUS : Nat := 2

/-- `self.grid[y][x]` with natural-number indices; reads outside the grid
default to `0`.  All reads performed by the embedded code happen at
in-bounds coordinates, matching the Python accesses. -/
def cellN (g : Grid) (x y : Nat) : Nat := (g.getD y []).getD x 0

/-- `self.grid[y][x]` at integer coordinates (the engine only ever reads
non-negative in-bounds coordinates). -/
def cellAt (g : Grid) (x y : Int) : Nat := cellN g x.toNat y.toNat

/-- `self.grid[y][x] = v`: replace one entry of the row-list. -/
def setCell (g : Grid) (x y v : Nat) : Grid := g.set y ((g.getD y []).set x v)

theorem length_setCell (g : Grid) (x y v : Nat) : (setCell g x y v).length = g.length := by
  simp [setCell]

theorem getD_set_ne {α : Type} (l : List α) (i j : Nat) (a d : α) (h : i ≠ j) :
    (l.set i a).getD j d = l.getD j d := by
  induction l generalizing i j with
  | nil => rfl
  | cons hd tl ih =>
    cases i with
    | zero =>
      cases j with
      | zero => exact absurd rfl h
      | succ j => rfl
    | succ i =>
      cases j with
      | zero => rfl
      | succ j => exact ih i j (by omega)

theorem getD_set_self {α : Type} (l : List α) (i : Nat) (a d : α) (h : i < l.length) :
    (l.set i a).getD i d = a := by
  induction l generalizing i with
  | nil => simp at h
  | cons hd tl ih =>
    cases i with
    | zero => rfl
    | succ i => exact ih i (by simpa using h)

/-- Row lengths are unchanged by `setCell`. -/
theorem row_length_setCell (g : Grid) (x y v j : Nat) :
    ((setCell g x y v).getD j []).length = (g.getD j []).length := by
  by_cases h : y = j
  · subst h
    by_cases hy : y < g.length
    · rw [setCell, getD_set_self _ _ _ _ hy, List.length_set]
    · have : g.set y ((g.getD y []).set x v) = g := List.set_eq_of_length_le (by omega)
      rw [setCell, this]
  · rw [setCell, getD_set_ne _ _ _ _ _ h]

/-- Reading a different cell after `setCell`. -/
theorem cellN_setCell_ne (g : Grid) {x y x' y' : Nat} (v : Nat)
    (h : x' ≠ x ∨ y' ≠ y) :
    cellN (setCell g x y v) x' y' = cellN g x' y' := by
  rcases h with h | h
  · by_cases hy : y' = y
    · subst hy
      by_cases hin : y' < g.length
      · rw [cellN, setCell, getD_set_self _ _ _ _ hin, cellN,
          getD_set_ne _ _ _ _ _ (by omega)]
      · have : g.set y' ((g.getD y' []).set x v) = g := List.set_eq_of_length_le (by omega)
        rw [cellN, setCell, this, cellN]
    · rw [cellN, setCell, getD_set_ne _ _ _ _ _ (by omega), cellN]
  · rw [cellN, setCell, getD_set_ne _ _ _ _ _ (by omega), cellN]

/-- Reading back a cell that was just written (in bounds). -/
theorem cellN_setCell_self (g : Grid) {x y : Nat} (v : Nat)
    (hy : y < g.length) (hx : x < (g.getD y []).length) :
    cellN (setCell g x y v) x y = v := by
  rw [cellN, setCell, getD_set_self _ _ _ _ hy, getD_set_self _ _ _ _ hx]

/-- The engine object: `grid_size`, `grid`, `start`, `goal`
(`MarioTrapAvoidance.__init__` fields). -/
structure Engine where
  gridSize : Nat
  grid : Grid
  start : Pos
  goal : Pos
  deriving DecidableEq, Repr

/-- `MarioTrapAvoidance.__init__(grid_size)`: an all-empty square grid with
`start = (0, 0)` and `goal = (grid_size - 1, grid_size - 1)`.  The Python
constructor performs no size validation whatsoever. -/
def mkEngine (gridSize : Nat) : Engine :=
  { gridSize := gridSize
  , grid := List.replicate gridSize (List.replicate gridSize 0)
  , start := (0, 0)
  , goal := ((gridSize : Int) - 1, (gridSize : Int) - 1) }

/-- The engine built by `app.find_path` from an externally supplied matrix:
`MarioTrapAvoidance(len(grid))` followed by `game.grid = grid`. -/
def engineOfGrid (g : Grid) : Engine :=
  { gridSize := g.length
  , grid := g
  , start := (0, 0)
  , goal := ((g.length : Int) - 1, (g.length : Int) - 1) }

/-- The grid list is a well-formed `gridSize × gridSize` matrix. -/
def WellFormed (eng : Engine) : Prop :=
  eng.grid.length = eng.gridSize ∧ ∀ row ∈ eng.grid, row.length = eng.gridSize

/-- A square matrix (every row as long as the list of rows). -/
def SquareGrid (g : Grid) : Prop := ∀ row ∈ g, row.length = g.length

theorem wellFormed_engineOfGrid {g : Grid} (h : SquareGrid g) :
    WellFormed (engineOfGrid g) := ⟨rfl, h⟩

instance : DecidablePred SquareGrid := fun g =>
  inferInstanceAs (Decidable (∀ row ∈ g, row.length = g.length))

/-- `0 <= a < grid_size and 0 <= b < grid_size`, the bounds test inside
`get_neighbors`. -/
def inBounds (eng : Engine) (a b : Int) : Bool :=
  decide (0 ≤ a) && decide (a < (eng.gridSize : Int)) &&
  decide (0 ≤ b) && decide (b < (eng.gridSize : Int))

theorem inBounds_iff (eng : Engine) (a b : Int) :
    inBounds eng a b = true ↔
      0 ≤ a ∧ a < (eng.gridSize : Int) ∧ 0 ≤ b ∧ b < (eng.gridSize : Int) := by
  simp [inBounds, and_assoc]

/-- `get_neighbors(x, y)`: the in-bounds cells one step away, visited in
the fixed order Down `(0,1)`, Right `(1,0)`, Up `(0,-1)`, Left `(-1,0)`
(the Python loop over `directions`, unrolled). -/
def get_neighbors (eng : Engine) (x y : Int) : List Pos :=
  (if inBounds eng x (y + 1) then [(x, y + 1)] else []) ++
  (if inBounds eng (x + 1) y then [(x + 1, y)] else []) ++
  (if inBounds eng x (y - 1) then [(x, y - 1)] else []) ++
  (if inBounds eng (x - 1) y then [(x - 1, y)] else [])

theorem mem_get_neighbors {eng : Engine} {x y : Int} {p : Pos} :
    p ∈ get_neighbors eng x y ↔
      inBounds eng p.1 p.2 = true ∧
        (p = (x, y + 1) ∨ p = (x + 1, y) ∨ p = (x, y - 1) ∨ p = (x - 1, y)) := by
  unfold get_neighbors
  constructor
  · intro hp
    simp only [List.mem_append] at hp
    rcases hp with ((h | h) | h) | h <;>
      · split at h <;> simp_all
  · rintro ⟨hb, h | h | h | h⟩ <;> subst h <;> simp_all

/-- Neighbors are in bounds. -/
theorem inBounds_of_mem_get_neighbors {eng : Engine} {x y : Int} {p : Pos}
    (h : p ∈ get_neighbors eng x y) : inBounds eng p.1 p.2 = true :=
  (mem_get_neighbors.mp h).1

/-- A cell is never its own neighbor. -/
theorem ne_of_mem_get_neighbors {eng : Engine} {x y : Int} {p : Pos}
    (h : p ∈ get_neighbors eng x y) : p ≠ (x, y) := by
  rcases (mem_get_neighbors.mp h).2 with h | h | h | h <;> subst h <;>
    simp [Prod.ext_iff]

/-- The neighbor list has no duplicates. -/
theorem nodup_get_neighbors (eng : Engine) (x y : Int) :
    (get_neighbors eng x y).Nodup := by
  unfold get_neighbors
  split <;> split <;> split <;> split <;>
    simp_all [List.nodup_cons, Prod.ext_iff] <;> omega

/-- There are at most four neighbors. -/
theorem length_get_neighbors_le (eng : Engine) (x y : Int) :
    (get_neighbors eng x y).length ≤ 4 := by
  unfold get_neighbors
  split <;> split <;> split <;> split <;> simp

/-- Neighborhood is symmetric on in-bounds cells. -/
theorem mem_get_neighbors_symm {eng : Engine} {x y : Int} {p : Pos}
    (hxy : inBounds eng x y = true) (h : p ∈ get_neighbors eng x y) :
    (x, y) ∈ get_neighbors eng p.1 p.2 := by
  rcases mem_get_neighbors.mp h with ⟨_, h | h | h | h⟩ <;> subst h <;>
    · rw [mem_get_neighbors]
      refine ⟨hxy, ?_⟩
      simp [Prod.ext_iff]
      try omega

/-- `heuristic(pos)`: Manhattan distance from `pos` to the goal. -/
def heuristic (eng : Engine) (pos : Pos) : Nat :=
  (pos.1 - eng.goal.1).natAbs + (pos.2 - eng.goal.2).natAbs

/-- The movement cost of entering a cell: 2 for `DANGEROUS`, otherwise 1
(the `move_cost` computation inside `a_star_search`). -/
def move_cost (eng : Engine) (p : Pos) : Nat :=
  if cellAt eng.grid p.1 p.2 = DANGEROUS then 2 else 1

theorem one_le_move_cost (eng : Engine) (p : Pos) : 1 ≤ move_cost eng p := by
  unfold move_cost; split <;> omega

/-- `is_safe_path(x, y)`: false on a trap, false when 3 or more neighbors
are `DANGEROUS` or `TRAP`, true otherwise. -/
def is_safe_path (eng : Engine) (x y : Int) : Bool :=
  if cellAt eng.grid x y = TRAP then false
  else
    let dangerous_count :=
      (get_neighbors eng x y).countP fun p =>
        decide (cellAt eng.grid p.1 p.2 = DANGEROUS) ||
        decide (cellAt eng.grid p.1 p.2 = TRAP)
    if 3 ≤ dangerous_count then false else true

/-! ### Hazard derivation: the dangerous-marking pass of `initialize_grid` -/

/-- `g` is an `n × n` matrix. -/
def GridDims (n : Nat) (g : Grid) : Prop :=
  g.length = n ∧ ∀ row ∈ g, row.length = n

/-- `p` denotes an actual entry of the row-list `g`. -/
def posInGrid (g : Grid) (p : Pos) : Prop :=
  0 ≤ p.1 ∧ 0 ≤ p.2 ∧ p.2.toNat < g.length ∧ p.1.toNat < (g.getD p.2.toNat []).length

theorem getD_eq_of_lt {α : Type} (l : List α) (d : α) {i : Nat} (h : i < l.length) :
    l.getD i d = l[i] := by
  induction l generalizing i with
  | nil => simp at h
  | cons hd tl ih =>
    cases i with
    | zero => rfl
    | succ i => exact ih (by simpa using h)

theorem posInGrid_of_inBounds {eng : Engine} {g : Grid}
    (hd : GridDims eng.gridSize g) {p : Pos} (hb : inBounds eng p.1 p.2 = true) :
    posInGrid g p := by
  obtain ⟨h1, h2, h3, h4⟩ := (inBounds_iff eng p.1 p.2).mp hb
  have hy : p.2.toNat < g.length := by rw [hd.1]; omega
  refine ⟨h1, h3, hy, ?_⟩
  have hrow : g.getD p.2.toNat [] ∈ g := by
    rw [getD_eq_of_lt _ _ hy]
    exact List.getElem_mem hy
  rw [hd.2 _ hrow]
  omega

/-- `if self.grid[ny][nx] == self.EMPTY: self.grid[ny][nx] = self.DANGEROUS`,
the body of the innermost loop of `initialize_grid`. -/
def markCell (g : Grid) (p : Pos) : Grid :=
  if cellAt g p.1 p.2 = EMPTY then setCell g p.1.toNat p.2.toNat DANGEROUS else g

theorem length_markCell (g : Grid) (p : Pos) : (markCell g p).length = g.length := by
  unfold markCell; split <;> simp [length_setCell]

theorem row_length_markCell (g : Grid) (p : Pos) (j : Nat) :
    ((markCell g p).getD j []).length = (g.getD j []).length := by
  unfold markCell; split
  · exact row_length_setCell _ _ _ _ _
  · rfl

theorem dims_markCell {n : Nat} {g : Grid} (hd : GridDims n g) (p : Pos) :
    GridDims n (markCell g p) := by
  constructor
  · rw [length_markCell, hd.1]
  · intro row hrow
    obtain ⟨i, hi, rfl⟩ := List.getElem_of_mem hrow
    have hi' : i < g.length := by rw [← length_markCell g p]; exact hi
    have := row_length_markCell g p i
    rw [getD_eq_of_lt _ _ hi, getD_eq_of_lt _ _ hi'] at this
    rw [this]
    exact hd.2 _ (List.getElem_mem hi')

/-- Marking a (non-negative) cell touches only that cell. -/
theorem cellN_markCell_ne (g : Grid) {p : Pos} {a b : Nat}
    (hp1 : 0 ≤ p.1) (hp2 : 0 ≤ p.2) (h : ((a : Int), (b : Int)) ≠ p) :
    cellN (markCell g p) a b = cellN g a b := by
  unfold markCell
  split
  · apply cellN_setCell_ne
    by_cases hx : a = p.1.toNat
    · right
      intro hy
      apply h
      have hx' : p.1 = (a : Int) := by omega
      have hy' : p.2 = (b : Int) := by omega
      ext
      · simp [hx']
      · simp [hy']
    · left; omega
  · rfl

/-- Reading back the marked cell: it becomes `DANGEROUS` iff it was `EMPTY`. -/
theorem cellN_markCell_self (g : Grid) {p : Pos} (hp : posInGrid g p) :
    cellN (markCell g p) p.1.toNat p.2.toNat =
      if cellN g p.1.toNat p.2.toNat = EMPTY then DANGEROUS
      else cellN g p.1.toNat p.2.toNat := by
  unfold markCell cellAt
  split
  · exact cellN_setCell_self g DANGEROUS hp.2.2.1 hp.2.2.2
  · rfl

theorem posInGrid_markCell {g : Grid} (p : Pos) {q : Pos} (h : posInGrid g q) :
    posInGrid (markCell g p) q := by
  obtain ⟨h1, h2, h3, h4⟩ := h
  refine ⟨h1, h2, ?_, ?_⟩
  · rw [length_markCell]; exact h3
  · rw [row_length_markCell]; exact h4

/-- Pointwise effect of the inner marking loop over a duplicate-free list of
in-grid cells. -/
theorem cellN_foldl_markCell (g : Grid) (nbrs : List Pos) (hnd : nbrs.Nodup)
    (hb : ∀ p ∈ nbrs, posInGrid g p) (a b : Nat) :
    cellN (nbrs.foldl markCell g) a b =
      if ((a : Int), (b : Int)) ∈ nbrs ∧ cellN g a b = EMPTY then DANGEROUS
      else cellN g a b := by
  induction nbrs generalizing g with
  | nil => simp
  | cons p rest ih =>
    have hpin : posInGrid g p := hb p (List.mem_cons_self p rest)
    have hrest : ∀ q ∈ rest, posInGrid (markCell g p) q := fun q hq =>
      posInGrid_markCell p (hb q (List.mem_cons_of_mem _ hq))
    have hstep := ih (markCell g p) (List.Nodup.of_cons hnd) hrest
    rw [List.foldl_cons, hstep]
    by_cases hq : ((a : Int), (b : Int)) = p
    · have hnotin : ((a : Int), (b : Int)) ∉ rest := by
        rw [hq]; exact (List.nodup_cons.mp hnd).1
      have ha' : p.1.toNat = a := by
        rw [← hq]; simp
      have hb' : p.2.toNat = b := by
        rw [← hq]; simp
      have hself := cellN_markCell_self g hpin
      rw [ha', hb'] at hself
      by_cases hemp : cellN g a b = EMPTY
      · rw [if_neg (by simp [hnotin]), hself, if_pos hemp,
          if_pos ⟨by simp [hq], hemp⟩]
      · rw [if_neg (by simp [hnotin]), hself, if_neg hemp,
          if_neg (by simp [hemp])]
    · have hne := cellN_markCell_ne g hpin.1 hpin.2.1 hq
      rw [hne]
      by_cases hmem : ((a : Int), (b : Int)) ∈ rest
      · by_cases hemp : cellN g a b = EMPTY
        · rw [if_pos ⟨hmem, hemp⟩, if_pos ⟨List.mem_cons_of_mem _ hmem, hemp⟩]
        · rw [if_neg (by simp [hemp]), if_neg (by simp [hemp])]
      · rw [if_neg (by simp [hmem])]
        rw [if_neg ?_]
        rintro ⟨hin, hemp⟩
        rcases List.mem_cons.mp hin with h | h
        · exact hq h
        · exact hmem h

/-- One source cell `(y, x)` of the outer double loop of `initialize_grid`:
if it holds a trap, mark each of its currently-`EMPTY` neighbors
`DANGEROUS`. -/
def markFrom (eng : Engine) (g : Grid) (yx : Nat × Nat) : Grid :=
  if cellN g yx.2 yx.1 = TRAP then
    (get_neighbors eng (yx.2 : Int) (yx.1 : Int)).foldl markCell g
  else g

theorem dims_foldl_markCell {n : Nat} {g : Grid} (hd : GridDims n g) (l : List Pos) :
    GridDims n (l.foldl markCell g) := by
  induction l generalizing g with
  | nil => exact hd
  | cons p rest ih => exact ih (dims_markCell hd p)

theorem dims_markFrom {eng : Engine} {g : Grid} (hd : GridDims eng.gridSize g)
    (yx : Nat × Nat) : GridDims eng.gridSize (markFrom eng g yx) := by
  unfold markFrom
  split
  · exact dims_foldl_markCell hd _
  · exact hd

/-- Pointwise effect of processing one source cell. -/
theorem cellN_markFrom (eng : Engine) {g : Grid} (hd : GridDims eng.gridSize g)
    (yx : Nat × Nat) (a b : Nat) :
    cellN (markFrom eng g yx) a b =
      if cellN g yx.2 yx.1 = TRAP ∧
          ((a : Int), (b : Int)) ∈ get_neighbors eng (yx.2 : Int) (yx.1 : Int) ∧
          cellN g a b = EMPTY
      then DANGEROUS else cellN g a b := by
  unfold markFrom
  by_cases htrap : cellN g yx.2 yx.1 = TRAP
  · rw [if_pos htrap]
    rw [cellN_foldl_markCell g _ (nodup_get_neighbors eng _ _)
      (fun p hp => posInGrid_of_inBounds hd (inBounds_of_mem_get_neighbors hp)) a b]
    by_cases hmem : ((a : Int), (b : Int)) ∈ get_neighbors eng (yx.2 : Int) (yx.1 : Int)
    · by_cases hemp : cellN g a b = EMPTY
      · rw [if_pos ⟨hmem, hemp⟩, if_pos ⟨htrap, hmem, hemp⟩]
      · rw [if_neg (by simp [hemp]), if_neg (by simp [hemp])]
    · rw [if_neg (by simp [hmem]), if_neg (by simp [hmem])]
  · rw [if_neg htrap, if_neg (by simp [htrap])]

/-- The row-major list of source coordinates `(y, x)` scanned by the outer
double loop `for y in range(n): for x in range(n)`. -/
def idxList (n : Nat) : List (Nat × Nat) :=
  (List.range n).flatMap fun y => (List.range n).map fun x => (y, x)

theorem mem_idxList {n : Nat} {yx : Nat × Nat} :
    yx ∈ idxList n ↔ yx.1 < n ∧ yx.2 < n := by
  cases yx with
  | mk y x =>
    simp [idxList, List.mem_flatMap, List.mem_map, List.mem_range]

/-- The dangerous-marking pass of `initialize_grid` (its final double loop):
scan all cells in row-major order and, for each trap cell, mark its `EMPTY`
neighbors `DANGEROUS`. -/
def mark_dangerous (eng : Engine) (g : Grid) : Grid :=
  (idxList eng.gridSize).foldl (markFrom eng) g

theorem dims_foldl_markFrom {eng : Engine} {g : Grid}
    (hd : GridDims eng.gridSize g) (S : List (Nat × Nat)) :
    GridDims eng.gridSize (S.foldl (markFrom eng) g) := by
  induction S generalizing g with
  | nil => exact hd
  | cons s rest ih => exact ih (dims_markFrom hd s)

theorem dims_mark_dangerous {eng : Engine} {g : Grid}
    (hd : GridDims eng.gridSize g) : GridDims eng.gridSize (mark_dangerous eng g) :=
  dims_foldl_markFrom hd _

/-- `markFrom` never creates or destroys traps. -/
theorem markFrom_trap_iff (eng : Engine) {g : Grid} (hd : GridDims eng.gridSize g)
    (yx : Nat × Nat) (c d : Nat) :
    (cellN (markFrom eng g yx) c d = TRAP ↔ cellN g c d = TRAP) := by
  rw [cellN_markFrom eng hd yx c d]
  split
  · rename_i hcond
    constructor
    · intro h; exact absurd h (by simp [DANGEROUS, TRAP])
    · intro h
      rw [hcond.2.2] at h
      simp [EMPTY, TRAP] at h
  · exact Iff.rfl

/-- Pointwise effect of folding `markFrom` over a list of source cells: a
cell is marked iff it is `EMPTY` and some source in the list holds a trap
adjacent to it. -/
theorem cellN_foldl_markFrom (eng : Engine) {g : Grid} (hd : GridDims eng.gridSize g)
    (S : List (Nat × Nat)) (a b : Nat) :
    cellN (S.foldl (markFrom eng) g) a b =
      if cellN g a b = EMPTY ∧ ∃ yx ∈ S, cellN g yx.2 yx.1 = TRAP ∧
          ((a : Int), (b : Int)) ∈ get_neighbors eng (yx.2 : Int) (yx.1 : Int)
      then DANGEROUS else cellN g a b := by
  induction S generalizing g with
  | nil => simp
  | cons s rest ih =>
    rw [List.foldl_cons]
    have hd1 : GridDims eng.gridSize (markFrom eng g s) := dims_markFrom hd s
    rw [ih hd1]
    have htr : ∀ c d : Nat,
        (cellN (markFrom eng g s) c d = TRAP ↔ cellN g c d = TRAP) :=
      markFrom_trap_iff eng hd s
    have hcell := cellN_markFrom eng hd s a b
    by_cases hemp : cellN g a b = EMPTY
    · by_cases hmark : cellN g s.2 s.1 = TRAP ∧
          ((a : Int), (b : Int)) ∈ get_neighbors eng (s.2 : Int) (s.1 : Int)
      · have h1 : cellN (markFrom eng g s) a b = DANGEROUS := by
          rw [hcell, if_pos ⟨hmark.1, hmark.2, hemp⟩]
        rw [if_neg (by simp [h1, DANGEROUS, EMPTY]), h1,
          if_pos ⟨hemp, s, List.mem_cons_self s rest, hmark⟩]
      · have h1 : cellN (markFrom eng g s) a b = cellN g a b := by
          rw [hcell, if_neg (by rintro ⟨u, v, -⟩; exact hmark ⟨u, v⟩)]
        rw [h1]
        by_cases hrest : ∃ yx ∈ rest, cellN g yx.2 yx.1 = TRAP ∧
            ((a : Int), (b : Int)) ∈ get_neighbors eng (yx.2 : Int) (yx.1 : Int)
        · obtain ⟨yx, hyx, h2, h3⟩ := hrest
          rw [if_pos ⟨hemp, yx, hyx, (htr _ _).mpr h2, h3⟩,
            if_pos ⟨hemp, yx, List.mem_cons_of_mem _ hyx, h2, h3⟩]
        · rw [if_neg, if_neg]
          · rintro ⟨-, yx, hyx, h2, h3⟩
            rcases List.mem_cons.mp hyx with rfl | hyx'
            · exact hmark ⟨h2, h3⟩
            · exact hrest ⟨yx, hyx', h2, h3⟩
          · rintro ⟨-, yx, hyx, h2, h3⟩
            exact hrest ⟨yx, hyx, (htr _ _).mp h2, h3⟩
    · have h1 : cellN (markFrom eng g s) a b = cellN g a b := by
        rw [hcell, if_neg (by rintro ⟨-, -, h⟩; exact hemp h)]
      rw [h1, if_neg (by rintro ⟨h, -⟩; exact hemp h),
        if_neg (by rintro ⟨h, -⟩; exact hemp h)]

/-- The hazard-derivation pass, characterized: an in-range cell of
`mark_dangerous eng g` is `DANGEROUS`-marked exactly when it is `EMPTY` in
`g` and has an in-bounds 4-directional neighbor holding a trap. -/
theorem cellN_mark_dangerous (eng : Engine) {g : Grid} (hd : GridDims eng.gridSize g)
    {a b : Nat} (ha : a < eng.gridSize) (hb : b < eng.gridSize) :
    cellN (mark_dangerous eng g) a b =
      if cellN g a b = EMPTY ∧
          ∃ p ∈ get_neighbors eng (a : Int) (b : Int), cellAt g p.1 p.2 = TRAP
      then DANGEROUS else cellN g a b := by
  rw [mark_dangerous, cellN_foldl_markFrom eng hd _ a b]
  have hiff : (∃ yx ∈ idxList eng.gridSize, cellN g yx.2 yx.1 = TRAP ∧
      ((a : Int), (b : Int)) ∈ get_neighbors eng (yx.2 : Int) (yx.1 : Int)) ↔
      (∃ p ∈ get_neighbors eng (a : Int) (b : Int), cellAt g p.1 p.2 = TRAP) := by
    constructor
    · rintro ⟨yx, hyx, htrap, hadj⟩
      obtain ⟨hy, hx⟩ := mem_idxList.mp hyx
      have hinb : inBounds eng (yx.2 : Int) (yx.1 : Int) = true := by
        rw [inBounds_iff]; omega
      refine ⟨((yx.2 : Int), (yx.1 : Int)), mem_get_neighbors_symm hinb hadj, ?_⟩
      simpa [cellAt, cellN] using htrap
    · rintro ⟨p, hp, htrap⟩
      have hinb := inBounds_of_mem_get_neighbors hp
      obtain ⟨h1, h2, h3, h4⟩ := (inBounds_iff eng p.1 p.2).mp hinb
      refine ⟨(p.2.toNat, p.1.toNat), mem_idxList.mpr ⟨by omega, by omega⟩, ?_, ?_⟩
      · simpa [cellAt, cellN] using htrap
      · have hab : inBounds eng (a : Int) (b : Int) = true := by
          rw [inBounds_iff]
          refine ⟨by omega, by omega, by omega, by omega⟩
        have := mem_get_neighbors_symm hab hp
        have e1 : ((p.1.toNat : Int)) = p.1 := Int.toNat_of_nonneg h1
        have e2 : ((p.2.toNat : Int)) = p.2 := Int.toNat_of_nonneg h3
        rw [e2, e1]
        exact this
  by_cases hc : cellN g a b = EMPTY ∧
      ∃ p ∈ get_neighbors eng (a : Int) (b : Int), cellAt g p.1 p.2 = TRAP
  · rw [if_pos ⟨hc.1, hiff.mpr hc.2⟩, if_pos hc]
  · rw [if_neg (fun h => hc ⟨h.1, hiff.mp h.2⟩), if_neg hc]

/-- `mark_dangerous` never creates or destroys traps (in-range cells). -/
theorem mark_dangerous_trap_iff (eng : Engine) {g : Grid}
    (hd : GridDims eng.gridSize g) {a b : Nat} (ha : a < eng.gridSize)
    (hb : b < eng.gridSize) :
    (cellN (mark_dangerous eng g) a b = TRAP ↔ cellN g a b = TRAP) := by
  rw [cellN_mark_dangerous eng hd ha hb]
  split
  · rename_i hcond
    constructor
    · intro h; exact absurd h (by simp [DANGEROUS, TRAP])
    · intro h
      rw [hcond.1] at h
      exact absurd h (by simp [EMPTY, TRAP])
  · exact Iff.rfl

/-- Two `n × n` grids with the same cells are equal. -/
theorem grid_ext {n : Nat} {g₁ g₂ : Grid} (h₁ : GridDims n g₁) (h₂ : GridDims n g₂)
    (hcell : ∀ a b, a < n → b < n → cellN g₁ a b = cellN g₂ a b) : g₁ = g₂ := by
  apply List.ext_getElem (by rw [h₁.1, h₂.1])
  intro i hi1 hi2
  apply List.ext_getElem
  · rw [h₁.2 _ (List.getElem_mem hi1), h₂.2 _ (List.getElem_mem hi2)]
  intro j hj1 hj2
  have hi : i < n := by rw [← h₁.1]; exact hi1
  have hj : j < n := by
    rw [← h₁.2 _ (List.getElem_mem hi1)]; exact hj1
  have := hcell j i hj hi
  rw [cellN, cellN, getD_eq_of_lt _ _ hi1, getD_eq_of_lt _ _ hi2,
    getD_eq_of_lt _ _ hj1, getD_eq_of_lt _ _ hj2] at this
  exact this

/-! ### Trap placement -/

theorem getD_eq_default_of_le {α : Type} (l : List α) (d : α) {i : Nat}
    (h : l.length ≤ i) : l.getD i d = d := by
  induction l generalizing i with
  | nil => cases i <;> rfl
  | cons hd tl ih =>
    cases i with
    | zero => simp at h
    | succ i => exact ih (by simpa using h)

/-- A cell of the freshly reset all-zero grid. -/
theorem cellN_replicate (n a b : Nat) :
    cellN (List.replicate n (List.replicate n (0 : Nat))) a b = 0 := by
  have hrow : (List.replicate n (List.replicate n (0 : Nat))).getD b [] =
      if b < n then List.replicate n 0 else [] := by
    by_cases hb : b < n
    · rw [if_pos hb, getD_eq_of_lt _ _ (by simpa using hb), List.getElem_replicate]
    · rw [if_neg hb, getD_eq_default_of_le _ _ (by simpa using Nat.le_of_not_lt hb)]
  rw [cellN, hrow]
  split
  · by_cases ha : a < n
    · rw [getD_eq_of_lt _ _ (by simpa using ha), List.getElem_replicate]
    · rw [getD_eq_default_of_le _ _ (by simpa using Nat.le_of_not_lt ha)]
  · rfl

theorem dims_replicate (n : Nat) :
    GridDims n (List.replicate n (List.replicate n (0 : Nat))) := by
  constructor
  · simp
  · intro row hrow
    rw [List.eq_of_mem_replicate hrow]
    simp

theorem dims_setCell {n : Nat} {g : Grid} (hd : GridDims n g) (x y v : Nat) :
    GridDims n (setCell g x y v) := by
  constructor
  · rw [length_setCell, hd.1]
  · intro row hrow
    obtain ⟨i, hi, rfl⟩ := List.getElem_of_mem hrow
    have hi' : i < g.length := by rw [← length_setCell g x y v]; exact hi
    have := row_length_setCell g x y v i
    rw [getD_eq_of_lt _ _ hi, getD_eq_of_lt _ _ hi'] at this
    rw [this]
    exact hd.2 _ (List.getElem_mem hi')

/-- Each cell is either overwritten or untouched by `setCell`. -/
theorem cellN_setCell_or (g : Grid) (x y v a b : Nat) :
    cellN (setCell g x y v) a b = v ∨ cellN (setCell g x y v) a b = cellN g a b := by
  by_cases h : a = x ∧ b = y
  · obtain ⟨rfl, rfl⟩ := h
    by_cases hy : b < g.length
    · by_cases hx : a < (g.getD b []).length
      · exact Or.inl (cellN_setCell_self g v hy hx)
      · right
        rw [cellN, setCell, getD_set_self _ _ _ _ hy,
          getD_eq_default_of_le _ _ (by simpa using Nat.le_of_not_lt hx), cellN,
          getD_eq_default_of_le _ _ (by simpa using Nat.le_of_not_lt hx)]
    · right
      rw [setCell, List.set_eq_of_length_le (by omega)]
  · right
    exact cellN_setCell_ne g v (by tauto)

/-- Number of trap cells on the grid. -/
def countTraps (g : Grid) : Nat :=
  (g.map fun row => row.countP fun c => decide (c = TRAP)).sum

theorem countP_set_le (row : List Nat) (x v : Nat) (p : Nat → Bool) :
    (row.set x v).countP p ≤ row.countP p + 1 := by
  induction row generalizing x with
  | nil => simp
  | cons hd tl ih =>
    cases x with
    | zero =>
      rw [List.set_cons_zero, List.countP_cons, List.countP_cons]
      have := ih 0
      split <;> split <;> omega
    | succ x =>
      rw [List.set_cons_succ, List.countP_cons, List.countP_cons]
      have := ih x
      split <;> omega

theorem countP_set_of_ne (row : List Nat) (x v : Nat) (p : Nat → Bool)
    (hold : p (row.getD x 0) = false) (hv : p v = false) :
    (row.set x v).countP p = row.countP p := by
  induction row generalizing x with
  | nil => simp
  | cons hd tl ih =>
    cases x with
    | zero =>
      rw [List.set_cons_zero, List.countP_cons, List.countP_cons]
      rw [List.getD_cons_zero] at hold
      rw [hold, hv]
    | succ x =>
      rw [List.set_cons_succ, List.countP_cons, List.countP_cons]
      rw [List.getD_cons_succ] at hold
      rw [ih x hold]

theorem countTraps_cons (row : List Nat) (tl : Grid) :
    countTraps (row :: tl) = (row.countP fun c => decide (c = TRAP)) + countTraps tl := by
  simp [countTraps]

/-- Writing one cell adds at most one trap. -/
theorem countTraps_setCell_le (g : Grid) (x y v : Nat) :
    countTraps (setCell g x y v) ≤ countTraps g + 1 := by
  induction g generalizing y with
  | nil => simp [setCell, countTraps]
  | cons row tl ih =>
    cases y with
    | zero =>
      have h : setCell (row :: tl) x 0 v = (row.set x v) :: tl := rfl
      rw [h, countTraps_cons, countTraps_cons]
      have := countP_set_le row x v fun c => decide (c = TRAP)
      omega
    | succ y =>
      have h : setCell (row :: tl) x (y + 1) v = row :: setCell tl x y v := rfl
      rw [h, countTraps_cons, countTraps_cons]
      have := ih y
      omega

/-- Writing a non-trap value over a non-trap cell keeps the trap count. -/
theorem countTraps_setCell_of_ne (g : Grid) (x y v : Nat)
    (hold : cellN g x y ≠ TRAP) (hv : v ≠ TRAP) :
    countTraps (setCell g x y v) = countTraps g := by
  induction g generalizing y with
  | nil => simp [setCell, countTraps]
  | cons row tl ih =>
    cases y with
    | zero =>
      have h : setCell (row :: tl) x 0 v = (row.set x v) :: tl := rfl
      rw [h, countTraps_cons, countTraps_cons,
        countP_set_of_ne row x v _
          (by simp only [decide_eq_false_iff_not]; exact hold)
          (by simp only [decide_eq_false_iff_not]; exact hv)]
    | succ y =>
      have h : setCell (row :: tl) x (y + 1) v = row :: setCell tl x y v := rfl
      rw [h, countTraps_cons, countTraps_cons, ih y hold]

/-- Marking never changes the trap count. -/
theorem countTraps_markCell (g : Grid) (p : Pos) :
    countTraps (markCell g p) = countTraps g := by
  unfold markCell
  split
  · rename_i hemp
    refine countTraps_setCell_of_ne g _ _ _ ?_ (by simp [DANGEROUS, TRAP])
    rw [cellAt] at hemp
    rw [hemp]
    simp [EMPTY, TRAP]
  · rfl

theorem countTraps_foldl_markCell (l : List Pos) (g : Grid) :
    countTraps (l.foldl markCell g) = countTraps g := by
  induction l generalizing g with
  | nil => rfl
  | cons p rest ih => rw [List.foldl_cons, ih, countTraps_markCell]

theorem countTraps_markFrom (eng : Engine) (g : Grid) (yx : Nat × Nat) :
    countTraps (markFrom eng g yx) = countTraps g := by
  unfold markFrom
  split
  · exact countTraps_foldl_markCell _ g
  · rfl

theorem countTraps_foldl_markFrom (eng : Engine) (S : List (Nat × Nat)) (g : Grid) :
    countTraps (S.foldl (markFrom eng) g) = countTraps g := by
  induction S generalizing g with
  | nil => rfl
  | cons s rest ih => rw [List.foldl_cons, ih, countTraps_markFrom]

theorem countTraps_mark_dangerous (eng : Engine) (g : Grid) :
    countTraps (mark_dangerous eng g) = countTraps g :=
  countTraps_foldl_markFrom eng _ g

/-- The trap-placement `while` loop of `initialize_grid`.  `draws` is the
stream of coordinate pairs produced by the two
`random.randint(0, grid_size - 1)` calls, indexed by the attempt counter;
`fuel` is the number of remaining attempts (`max_attempts - attempts`), so
the loop condition `attempts < max_attempts` becomes `fuel ≠ 0`. -/
def placeAux (eng : Engine) (draws : Nat → Nat × Nat) (trap_count : Nat) :
    Nat → Nat → Grid → Nat → Grid
  | 0, _, g, _ => g
  | fuel + 1, attempts, g, placed =>
    if placed < trap_count then
      if (((draws attempts).1 : Int), ((draws attempts).2 : Int)) ≠ eng.start ∧
          (((draws attempts).1 : Int), ((draws attempts).2 : Int)) ≠ eng.goal ∧
          cellN g (draws attempts).1 (draws attempts).2 ≠ TRAP then
        placeAux eng draws trap_count fuel (attempts + 1)
          (setCell g (draws attempts).1 (draws attempts).2 TRAP) (placed + 1)
      else
        placeAux eng draws trap_count fuel (attempts + 1) g placed
    else g

/-- The trap-placement phase: up to `trap_count` traps in at most
`trap_count * 10` attempts, starting from attempt `0`. -/
def place_traps (eng : Engine) (draws : Nat → Nat × Nat) (trap_count : Nat)
    (g : Grid) : Grid :=
  placeAux eng draws trap_count (trap_count * 10) 0 g 0

/-- `initialize_grid(trap_count)`: reset the grid to all-`EMPTY`, place
random traps avoiding `start`, `goal` and existing traps, then derive the
`DANGEROUS` classification. -/
def initialize_grid (eng : Engine) (trap_count : Nat)
    (draws : Nat → Nat × Nat) : Engine :=
  { eng with grid := mark_dangerous eng (place_traps eng draws trap_count
      (List.replicate eng.gridSize (List.replicate eng.gridSize 0))) }

theorem countTraps_replicate_zero (n : Nat) :
    countTraps (List.replicate n (List.replicate n (0 : Nat))) = 0 := by
  have h : (List.replicate n (0 : Nat)).countP (fun c => decide (c = TRAP)) = 0 := by
    rw [List.countP_eq_zero]
    intro c hc
    rw [List.eq_of_mem_replicate hc]
    simp [TRAP]
  rw [countTraps, List.map_replicate, h, List.sum_replicate, smul_zero]

theorem dims_placeAux {n : Nat} (eng : Engine) (draws : Nat → Nat × Nat)
    (tc : Nat) :
    ∀ (fuel attempts : Nat) (g : Grid) (placed : Nat), GridDims n g →
      GridDims n (placeAux eng draws tc fuel attempts g placed) := by
  intro fuel
  induction fuel with
  | zero => intro attempts g placed hd; exact hd
  | succ fuel ih =>
    intro attempts g placed hd
    rw [placeAux]
    split
    · split
      · exact ih _ _ _ (dims_setCell hd _ _ _)
      · exact ih _ _ _ hd
    · exact hd

/-- Every cell is `EMPTY` or `TRAP` throughout trap placement. -/
theorem cells01_placeAux (eng : Engine) (draws : Nat → Nat × Nat) (tc : Nat) :
    ∀ (fuel attempts : Nat) (g : Grid) (placed : Nat),
      (∀ a b, cellN g a b = EMPTY ∨ cellN g a b = TRAP) →
      ∀ a b, cellN (placeAux eng draws tc fuel attempts g placed) a b = EMPTY ∨
        cellN (placeAux eng draws tc fuel attempts g placed) a b = TRAP := by
  intro fuel
  induction fuel with
  | zero => intro attempts g placed h a b; exact h a b
  | succ fuel ih =>
    intro attempts g placed h a b
    rw [placeAux]
    split
    · split
      · refine ih _ _ _ ?_ a b
        intro a' b'
        rcases cellN_setCell_or g (draws attempts).1 (draws attempts).2 TRAP a' b' with
          h1 | h1
        · exact Or.inr h1
        · rw [h1]; exact h a' b'
      · exact ih _ _ _ h a b
    · exact h a b

/-- Main invariant of the trap-placement loop: the trap count never exceeds
`placed` (itself capped at `trap_count`), and start/goal stay trap-free. -/
theorem placeAux_invariant (eng : Engine) (draws : Nat → Nat × Nat) (tc : Nat)
    (hs1 : 0 ≤ eng.start.1) (hs2 : 0 ≤ eng.start.2)
    (hg1 : 0 ≤ eng.goal.1) (hg2 : 0 ≤ eng.goal.2) :
    ∀ (fuel attempts : Nat) (g : Grid) (placed : Nat),
      countTraps g ≤ placed → placed ≤ tc →
      cellAt g eng.start.1 eng.start.2 ≠ TRAP →
      cellAt g eng.goal.1 eng.goal.2 ≠ TRAP →
      countTraps (placeAux eng draws tc fuel attempts g placed) ≤ tc ∧
      cellAt (placeAux eng draws tc fuel attempts g placed) eng.start.1 eng.start.2 ≠ TRAP ∧
      cellAt (placeAux eng draws tc fuel attempts g placed) eng.goal.1 eng.goal.2 ≠ TRAP := by
  intro fuel
  induction fuel with
  | zero =>
    intro attempts g placed hcount hplaced hstart hgoal
    exact ⟨Nat.le_trans hcount hplaced, hstart, hgoal⟩
  | succ fuel ih =>
    intro attempts g placed hcount hplaced hstart hgoal
    rw [placeAux]
    split
    · rename_i hlt
      split
      · rename_i hguard
        obtain ⟨hne1, hne2, -⟩ := hguard
        set xy := draws attempts with hxy
        have hstart' : cellAt (setCell g xy.1 xy.2 TRAP) eng.start.1 eng.start.2 =
            cellAt g eng.start.1 eng.start.2 := by
          apply cellN_setCell_ne
          by_cases h1 : eng.start.1.toNat = xy.1
          · right
            intro h2
            apply hne1
            have e1 : (xy.1 : Int) = eng.start.1 := by omega
            have e2 : (xy.2 : Int) = eng.start.2 := by omega
            ext
            · exact e1
            · exact e2
          · left; exact h1
        have hgoal' : cellAt (setCell g xy.1 xy.2 TRAP) eng.goal.1 eng.goal.2 =
            cellAt g eng.goal.1 eng.goal.2 := by
          apply cellN_setCell_ne
          by_cases h1 : eng.goal.1.toNat = xy.1
          · right
            intro h2
            apply hne2
            have e1 : (xy.1 : Int) = eng.goal.1 := by omega
            have e2 : (xy.2 : Int) = eng.goal.2 := by omega
            ext
            · exact e1
            · exact e2
          · left; exact h1
        refine ih _ _ _ ?_ (by omega) ?_ ?_
        · calc countTraps (setCell g xy.1 xy.2 TRAP) ≤ countTraps g + 1 :=
            countTraps_setCell_le g _ _ _
          _ ≤ placed + 1 := by omega
        · rw [hstart']; exact hstart
        · rw [hgoal']; exact hgoal
      · exact ih _ _ _ hcount hplaced hstart hgoal
    · exact ⟨Nat.le_trans hcount hplaced, hstart, hgoal⟩

theorem get_neighbors_of_generated (size tc : Nat) (draws : Nat → Nat × Nat)
    (x y : Int) :
    get_neighbors (initialize_grid (mkEngine size) tc draws) x y =
      get_neighbors (mkEngine size) x y := rfl

/-- C5: hazard derivation is idempotent — re-running the dangerous-marking
pass on an already-classified square grid leaves every cell unchanged, i.e.
produces an identical grid. -/
theorem mark_dangerous_idempotent (eng : Engine) (g : Grid)
    (hd : GridDims eng.gridSize g) :
    mark_dangerous eng (mark_dangerous eng g) = mark_dangerous eng g := by
  have hd2 : GridDims eng.gridSize (mark_dangerous eng g) := dims_mark_dangerous hd
  apply grid_ext (dims_mark_dangerous hd2) hd2
  intro a b ha hb
  rw [cellN_mark_dangerous eng hd2 ha hb, if_neg]
  rintro ⟨hemp, p, hp, htrap⟩
  have hinb := inBounds_of_mem_get_neighbors hp
  obtain ⟨h1, h2, h3, h4⟩ := (inBounds_iff eng p.1 p.2).mp hinb
  have htrap' : cellN g p.1.toNat p.2.toNat = TRAP :=
    (mark_dangerous_trap_iff eng hd (by omega) (by omega)).mp htrap
  rw [cellN_mark_dangerous eng hd ha hb] at hemp
  by_cases hcond : cellN g a b = EMPTY ∧
      ∃ q ∈ get_neighbors eng (a : Int) (b : Int), cellAt g q.1 q.2 = TRAP
  · rw [if_pos hcond] at hemp
    exact absurd hemp (by simp [DANGEROUS, EMPTY])
  · rw [if_neg hcond] at hemp
    exact hcond ⟨hemp, p, hp, htrap'⟩

theorem mark_dangerous_idempotent_witness :
    GridDims (mkEngine 2).gridSize [[0, 1], [0, 0]] ∧
      mark_dangerous (mkEngine 2) (mark_dangerous (mkEngine 2) [[0, 1], [0, 0]]) =
        mark_dangerous (mkEngine 2) [[0, 1], [0, 0]] :=
  ⟨by constructor <;> decide, mark_dangerous_idempotent (mkEngine 2) [[0, 1], [0, 0]]
    (by constructor <;> decide)⟩

/-- C4: on every grid produced by trap placement followed by hazard
derivation, an in-range cell is `DANGEROUS` iff it is not a trap and at
least one of its in-bounds 4-directional neighbors is a trap; every cell
that is neither `DANGEROUS` nor `TRAP` is `EMPTY`. -/
theorem initialize_grid_classification (size tc : Nat) (draws : Nat → Nat × Nat)
    {a b : Nat} (ha : a < size) (hb : b < size) :
    ((cellN (initialize_grid (mkEngine size) tc draws).grid a b = DANGEROUS ↔
        cellN (initialize_grid (mkEngine size) tc draws).grid a b ≠ TRAP ∧
          ∃ p ∈ get_neighbors (initialize_grid (mkEngine size) tc draws) (a : Int) (b : Int),
            cellAt (initialize_grid (mkEngine size) tc draws).grid p.1 p.2 = TRAP) ∧
      (cellN (initialize_grid (mkEngine size) tc draws).grid a b ≠ DANGEROUS →
        cellN (initialize_grid (mkEngine size) tc draws).grid a b ≠ TRAP →
        cellN (initialize_grid (mkEngine size) tc draws).grid a b = EMPTY)) := by
  have hd0 : GridDims (mkEngine size).gridSize
      (List.replicate size (List.replicate size (0 : Nat))) := dims_replicate size
  have hd1 : GridDims (mkEngine size).gridSize
      (place_traps (mkEngine size) draws tc
        (List.replicate size (List.replicate size 0))) :=
    dims_placeAux (mkEngine size) draws tc _ _ _ _ hd0
  set g1 := place_traps (mkEngine size) draws tc
    (List.replicate size (List.replicate size 0)) with hg1
  have h01 : ∀ a b : Nat, cellN g1 a b = EMPTY ∨ cellN g1 a b = TRAP := by
    intro a b
    exact cells01_placeAux (mkEngine size) draws tc _ _ _ _
      (fun a b => Or.inl (cellN_replicate size a b)) a b
  have hgrid : (initialize_grid (mkEngine size) tc draws).grid =
      mark_dangerous (mkEngine size) g1 := rfl
  rw [get_neighbors_of_generated, hgrid]
  have hchar := cellN_mark_dangerous (mkEngine size) hd1 ha hb
  have htr : ∀ p ∈ get_neighbors (mkEngine size) (a : Int) (b : Int),
      (cellAt (mark_dangerous (mkEngine size) g1) p.1 p.2 = TRAP ↔
        cellAt g1 p.1 p.2 = TRAP) := by
    intro p hp
    have hinb := inBounds_of_mem_get_neighbors hp
    obtain ⟨h1, h2, h3, h4⟩ := (inBounds_iff (mkEngine size) p.1 p.2).mp hinb
    exact mark_dangerous_trap_iff (mkEngine size) hd1 (by omega) (by omega)
  rcases h01 a b with hcell | hcell
  · by_cases hex : ∃ p ∈ get_neighbors (mkEngine size) (a : Int) (b : Int),
        cellAt g1 p.1 p.2 = TRAP
    · have hval : cellN (mark_dangerous (mkEngine size) g1) a b = DANGEROUS := by
        rw [hchar, if_pos ⟨hcell, hex⟩]
      constructor
      · rw [hval]
        constructor
        · intro _
          obtain ⟨p, hp, hptrap⟩ := hex
          exact ⟨by simp [DANGEROUS, TRAP], p, hp, (htr p hp).mpr hptrap⟩
        · intro _; rfl
      · intro hnd
        rw [hval] at hnd
        exact absurd rfl hnd
    · have hval : cellN (mark_dangerous (mkEngine size) g1) a b = EMPTY := by
        rw [hchar, if_neg (by rintro ⟨-, hx⟩; exact hex hx), hcell]
      constructor
      · rw [hval]
        constructor
        · intro h; exact absurd h (by simp [EMPTY, DANGEROUS])
        · rintro ⟨-, p, hp, hptrap⟩
          exact absurd ((htr p hp).mp hptrap) (fun h => hex ⟨p, hp, h⟩)
      · intro _ _; rw [hval]
  · have hval : cellN (mark_dangerous (mkEngine size) g1) a b = TRAP := by
      rw [hchar, if_neg, hcell]
      rintro ⟨h, -⟩
      rw [hcell] at h
      exact absurd h (by simp [EMPTY, TRAP])
    constructor
    · rw [hval]
      constructor
      · intro h; exact absurd h (by simp [TRAP, DANGEROUS])
      · rintro ⟨h, -⟩; exact absurd rfl h
    · intro _ hnt
      rw [hval] at hnt
      exact absurd rfl hnt

theorem initialize_grid_classification_witness :
    ((1 : Nat) < 3 ∧ (0 : Nat) < 3) ∧
      ((cellN (initialize_grid (mkEngine 3) 1 (fun _ => (1, 1))).grid 1 0 = DANGEROUS ↔
          cellN (initialize_grid (mkEngine 3) 1 (fun _ => (1, 1))).grid 1 0 ≠ TRAP ∧
            ∃ p ∈ get_neighbors (initialize_grid (mkEngine 3) 1 (fun _ => (1, 1)))
                ((1 : Nat) : Int) ((0 : Nat) : Int),
              cellAt (initialize_grid (mkEngine 3) 1 (fun _ => (1, 1))).grid p.1 p.2 = TRAP) ∧
        (cellN (initialize_grid (mkEngine 3) 1 (fun _ => (1, 1))).grid 1 0 ≠ DANGEROUS →
          cellN (initialize_grid (mkEngine 3) 1 (fun _ => (1, 1))).grid 1 0 ≠ TRAP →
          cellN (initialize_grid (mkEngine 3) 1 (fun _ => (1, 1))).grid 1 0 = EMPTY)) :=
  ⟨⟨by decide, by decide⟩,
    initialize_grid_classification 3 1 (fun _ => (1, 1)) (by decide) (by decide)⟩

/-- C6: for every grid size at least 2, every trap count and every sequence
of random draws, after trap placement the start cell `(0,0)` and the goal
cell `(N-1,N-1)` are not traps, and at most `trap_count` trap cells are on
the grid. -/
theorem initialize_grid_start_goal_traps (size tc : Nat) (draws : Nat → Nat × Nat)
    (hsize : 2 ≤ size) :
    cellAt (initialize_grid (mkEngine size) tc draws).grid 0 0 ≠ TRAP ∧
    cellAt (initialize_grid (mkEngine size) tc draws).grid
      ((size : Int) - 1) ((size : Int) - 1) ≠ TRAP ∧
    countTraps (initialize_grid (mkEngine size) tc draws).grid ≤ tc := by
  have hd0 : GridDims (mkEngine size).gridSize
      (List.replicate size (List.replicate size (0 : Nat))) := dims_replicate size
  have hd1 : GridDims (mkEngine size).gridSize
      (place_traps (mkEngine size) draws tc
        (List.replicate size (List.replicate size 0))) :=
    dims_placeAux (mkEngine size) draws tc _ _ _ _ hd0
  set g1 := place_traps (mkEngine size) draws tc
    (List.replicate size (List.replicate size 0)) with hg1
  have hgrid : (initialize_grid (mkEngine size) tc draws).grid =
      mark_dangerous (mkEngine size) g1 := rfl
  have hinv := placeAux_invariant (mkEngine size) draws tc
    (by simp [mkEngine]) (by simp [mkEngine])
    (by simp [mkEngine]; omega) (by simp [mkEngine]; omega)
    (tc * 10) 0 (List.replicate size (List.replicate size 0)) 0
    (by rw [countTraps_replicate_zero])
    (Nat.zero_le tc)
    (by rw [cellAt, cellN_replicate]; simp [TRAP])
    (by rw [cellAt, cellN_replicate]; simp [TRAP])
  obtain ⟨hcount, hstart, hgoal⟩ := hinv
  have e1 : ((size : Int) - 1).toNat = size - 1 := by omega
  refine ⟨?_, ?_, ?_⟩
  · rw [hgrid]
    intro h
    apply hstart
    have h' : cellN (mark_dangerous (mkEngine size) g1) 0 0 = TRAP := h
    exact (mark_dangerous_trap_iff (mkEngine size) hd1
      (by simpa [mkEngine] using Nat.lt_of_lt_of_le Nat.zero_lt_two hsize)
      (by simpa [mkEngine] using Nat.lt_of_lt_of_le Nat.zero_lt_two hsize)).mp h'
  · rw [hgrid]
    intro h
    apply hgoal
    have h' : cellN (mark_dangerous (mkEngine size) g1)
        ((size : Int) - 1).toNat ((size : Int) - 1).toNat = TRAP := h
    have hlt : ((size : Int) - 1).toNat < (mkEngine size).gridSize := by
      simp [mkEngine]; omega
    exact (mark_dangerous_trap_iff (mkEngine size) hd1 hlt hlt).mp h'
  · rw [hgrid, countTraps_mark_dangerous]
    exact hcount

theorem initialize_grid_start_goal_traps_witness :
    2 ≤ 2 ∧
      (cellAt (initialize_grid (mkEngine 2) 1 (fun _ => (1, 0))).grid 0 0 ≠ TRAP ∧
        cellAt (initialize_grid (mkEngine 2) 1 (fun _ => (1, 0))).grid
          ((2 : Int) - 1) ((2 : Int) - 1) ≠ TRAP ∧
        countTraps (initialize_grid (mkEngine 2) 1 (fun _ => (1, 0))).grid ≤ 1) :=
  ⟨Nat.le_refl 2, initialize_grid_start_goal_traps 2 1 (fun _ => (1, 0)) (Nat.le_refl 2)⟩

/-- The Manhattan heuristic changes by at most one along a neighbor step. -/
theorem heuristic_consistent {eng : Engine} {z p : Pos}
    (h : p ∈ get_neighbors eng z.1 z.2) :
    heuristic eng z ≤ heuristic eng p + 1 := by
  rcases (mem_get_neighbors.mp h).2 with hp | hp | hp | hp <;> subst hp <;>
    · unfold heuristic
      simp only
      omega

/-! ### The A* search engine -/

/-- An entry of the `heapq` frontier: `(f_score, position)`. -/
abbrev Entry := Nat × Pos

/-- Lexicographic comparison of heap entries, matching Python's comparison
of `(int, (int, int))` tuples, which `heapq` uses to select the minimum. -/
def entryLE (a b : Entry) : Bool :=
  decide (a.1 < b.1) || (decide (a.1 = b.1) &&
    (decide (a.2.1 < b.2.1) || (decide (a.2.1 = b.2.1) && decide (a.2.2 ≤ b.2.2))))

theorem entryLE_refl (a : Entry) : entryLE a a = true := by
  simp [entryLE]

theorem entryLE_trans {a b c : Entry} (h1 : entryLE a b = true)
    (h2 : entryLE b c = true) : entryLE a c = true := by
  simp only [entryLE, Bool.or_eq_true, Bool.and_eq_true, decide_eq_true_eq] at *
  omega

theorem entryLE_total (a b : Entry) : entryLE a b = true ∨ entryLE b a = true := by
  simp only [entryLE, Bool.or_eq_true, Bool.and_eq_true, decide_eq_true_eq]
  omega

/-- The running minimum of a list of entries, seeded with `cur`. -/
def findMinEntry (l : List Entry) (cur : Entry) : Entry :=
  l.foldl (fun m e => if entryLE e m then e else m) cur

theorem findMinEntry_mem (l : List Entry) (cur : Entry) :
    findMinEntry l cur = cur ∨ findMinEntry l cur ∈ l := by
  induction l generalizing cur with
  | nil => exact Or.inl rfl
  | cons e es ih =>
    rw [findMinEntry, List.foldl_cons]
    by_cases h : entryLE e cur = true
    · rw [if_pos h]
      rcases ih e with h1 | h1
      · exact Or.inr (by rw [findMinEntry] at h1; rw [h1]; exact List.mem_cons_self e es)
      · exact Or.inr (List.mem_cons_of_mem _ (by rw [findMinEntry] at h1; exact h1))
    · rw [if_neg h]
      rcases ih cur with h1 | h1
      · exact Or.inl (by rw [findMinEntry] at h1; exact h1)
      · exact Or.inr (List.mem_cons_of_mem _ (by rw [findMinEntry] at h1; exact h1))

theorem findMinEntry_le (l : List Entry) (cur : Entry) :
    entryLE (findMinEntry l cur) cur = true ∧
      ∀ x ∈ l, entryLE (findMinEntry l cur) x = true := by
  induction l generalizing cur with
  | nil => exact ⟨entryLE_refl cur, by simp⟩
  | cons e es ih =>
    rw [findMinEntry, List.foldl_cons]
    by_cases h : entryLE e cur = true
    · rw [if_pos h]
      obtain ⟨h1, h2⟩ := ih e
      rw [findMinEntry] at h1 h2
      refine ⟨entryLE_trans h1 h, ?_⟩
      intro x hx
      rcases List.mem_cons.mp hx with rfl | hx
      · exact h1
      · exact h2 x hx
    · rw [if_neg h]
      obtain ⟨h1, h2⟩ := ih cur
      rw [findMinEntry] at h1 h2
      refine ⟨h1, ?_⟩
      intro x hx
      rcases List.mem_cons.mp hx with rfl | hx
      · rcases entryLE_total cur x with hc | hc
        · exact entryLE_trans h1 hc
        · exact absurd hc h
      · exact h2 x hx

/-- `heapq.heappop`: remove and return a least entry of the frontier. -/
def popMin : List Entry → Option (Entry × List Entry)
  | [] => none
  | e :: es => some (findMinEntry es e, (e :: es).erase (findMinEntry es e))

theorem popMin_nil_iff {l : List Entry} : popMin l = none ↔ l = [] := by
  cases l <;> simp [popMin]

theorem popMin_spec {l : List Entry} {e : Entry} {rest : List Entry}
    (h : popMin l = some (e, rest)) :
    e ∈ l ∧ (∀ x ∈ l, entryLE e x = true) ∧ rest = l.erase e := by
  cases l with
  | nil => simp [popMin] at h
  | cons a as =>
    rw [popMin] at h
    injection h with h
    injection h with h1 h2
    subst h1
    refine ⟨?_, ?_, h2.symm⟩
    · rcases findMinEntry_mem as a with h | h
      · rw [h]; exact List.mem_cons_self a as
      · exact List.mem_cons_of_mem _ h
    · obtain ⟨hle, hall⟩ := findMinEntry_le as a
      intro x hx
      rcases List.mem_cons.mp hx with rfl | hx
      · exact hle
      · exact hall x hx

theorem length_erase_of_mem {l : List Entry} {e : Entry} (h : e ∈ l) :
    (l.erase e).length = l.length - 1 :=
  List.length_erase_of_mem h

theorem mem_erase_of_ne_of_mem {l : List Entry} {a e : Entry}
    (hne : a ≠ e) (ha : a ∈ l) : a ∈ l.erase e := by
  rw [List.mem_erase_of_ne hne]
  exact ha

/-- Dictionary lookup in an association list.  Python dict assignment is
modelled by prepending the new binding, so the first match is the current
value. -/
def assocFind {β : Type} : List (Pos × β) → Pos → Option β
  | [], _ => none
  | (k, v) :: es, p => if p = k then some v else assocFind es p

theorem assocFind_cons {β : Type} (k : Pos) (v : β) (es : List (Pos × β)) (p : Pos) :
    assocFind ((k, v) :: es) p = if p = k then some v else assocFind es p := rfl

/-- The ephemeral state of one `a_star_search` call.  The engine object
(`self`) is part of the state so that the absence of grid mutation is a
provable statement rather than a modelling choice. -/
structure SearchState where
  eng : Engine
  open_set : List Entry
  came_from : List (Pos × Pos)
  g_score : List (Pos × Nat)
  f_score : List (Pos × Nat)
  explored : Nat
  pruned : Nat
  visited : List Pos
  deriving DecidableEq, Repr

/-- The dictionary returned by `a_star_search`. -/
structure SearchResult where
  path : List Pos
  visited : List Pos
  explored : Nat
  pruned : Nat
  path_length : Nat
  deriving DecidableEq, Repr

/-- The accumulating walk of `reconstruct_path`: follow `came_from` while
the current node has a predecessor, prepending so the final list runs from
start to goal.  The Python `while` loop needs no bound; the fuel
`came_from.length + 1` is proved sufficient for every state the search can
reach (`reconAux_linkChain`). -/
def reconAux (cf : List (Pos × Pos)) : Nat → Pos → List Pos → List Pos
  | 0, _, acc => acc
  | fuel + 1, cur, acc =>
    match assocFind cf cur with
    | some prev => reconAux cf fuel prev (prev :: acc)
    | none => acc

/-- `reconstruct_path(came_from, current)`. -/
def reconstruct_path (cf : List (Pos × Pos)) (cur : Pos) : List Pos :=
  reconAux cf (cf.length + 1) cur [cur]

/-- The body of `for neighbor in self.get_neighbors(*current)`: prune
unsafe neighbors, otherwise relax.  `gcur` is `g_score[current]`, fetched
once per settled node (`None` stands for the defaultdict infinity; `inf`
never compares less, so no relaxation fires). -/
def processNeighbor (current : Pos) (gcur : Option Nat) (st : SearchState)
    (nb : Pos) : SearchState :=
  if is_safe_path st.eng nb.1 nb.2 = false then
    { st with pruned := st.pruned + 1 }
  else
    match gcur with
    | none => st
    | some gc =>
      if (match assocFind st.g_score nb with
          | none => true
          | some gn => decide (gc + move_cost st.eng nb < gn)) then
        { st with
          came_from := (nb, current) :: st.came_from
          , g_score := (nb, gc + move_cost st.eng nb) :: st.g_score
          , f_score :=
              (nb, gc + move_cost st.eng nb + heuristic st.eng nb) :: st.f_score
          , open_set :=
              st.open_set ++ [(gc + move_cost st.eng nb + heuristic st.eng nb, nb)] }
      else st

/-- The `while open_set:` loop of `a_star_search`, with explicit fuel.
Returns the result dictionary together with the final state (so that the
grid's immutability across the call is expressible). -/
def aStarLoop : Nat → SearchState → Option (SearchResult × SearchState)
  | 0, _ => none
  | fuel + 1, st =>
    match popMin st.open_set with
    | none =>
      some ({ path := [], visited := st.visited, explored := st.explored,
              pruned := st.pruned, path_length := 0 }, st)
    | some (e, rest) =>
      if e.2 ∈ st.visited then
        aStarLoop fuel { st with open_set := rest }
      else
        if e.2 = st.eng.goal then
          some ({ path := reconstruct_path st.came_from e.2
                , visited := e.2 :: st.visited
                , explored := st.explored + 1
                , pruned := st.pruned
                , path_length := (reconstruct_path st.came_from e.2).length },
            { st with open_set := rest
                    , visited := e.2 :: st.visited
                    , explored := st.explored + 1 })
        else
          aStarLoop fuel
            ((get_neighbors st.eng e.2.1 e.2.2).foldl
              (processNeighbor e.2 (assocFind st.g_score e.2))
              { st with open_set := rest
                      , visited := e.2 :: st.visited
                      , explored := st.explored + 1 })

/-- Unfolding: the frontier is empty, return the failure record. -/
theorem aStarLoop_none (fuel : Nat) (st : SearchState)
    (h : popMin st.open_set = none) :
    aStarLoop (fuel + 1) st =
      some ({ path := [], visited := st.visited, explored := st.explored,
              pruned := st.pruned, path_length := 0 }, st) := by
  rw [aStarLoop, h]

/-- Unfolding: a stale entry is discarded. -/
theorem aStarLoop_stale (fuel : Nat) (st : SearchState) {e : Entry}
    {rest : List Entry} (h : popMin st.open_set = some (e, rest))
    (hv : e.2 ∈ st.visited) :
    aStarLoop (fuel + 1) st = aStarLoop fuel { st with open_set := rest } := by
  rw [aStarLoop, h]
  simp only [if_pos hv]

/-- Unfolding: the goal is settled, return the reconstructed path. -/
theorem aStarLoop_goal (fuel : Nat) (st : SearchState) {e : Entry}
    {rest : List Entry} (h : popMin st.open_set = some (e, rest))
    (hv : e.2 ∉ st.visited) (hg : e.2 = st.eng.goal) :
    aStarLoop (fuel + 1) st =
      some ({ path := reconstruct_path st.came_from e.2
            , visited := e.2 :: st.visited
            , explored := st.explored + 1
            , pruned := st.pruned
            , path_length := (reconstruct_path st.came_from e.2).length },
        { st with open_set := rest
                , visited := e.2 :: st.visited
                , explored := st.explored + 1 }) := by
  rw [aStarLoop, h]
  simp only [if_neg hv, if_pos hg]

/-- Unfolding: a non-goal cell is settled and its neighbors relaxed. -/
theorem aStarLoop_relax (fuel : Nat) (st : SearchState) {e : Entry}
    {rest : List Entry} (h : popMin st.open_set = some (e, rest))
    (hv : e.2 ∉ st.visited) (hg : e.2 ≠ st.eng.goal) :
    aStarLoop (fuel + 1) st =
      aStarLoop fuel
        ((get_neighbors st.eng e.2.1 e.2.2).foldl
          (processNeighbor e.2 (assocFind st.g_score e.2))
          { st with open_set := rest
                  , visited := e.2 :: st.visited
                  , explored := st.explored + 1 }) := by
  rw [aStarLoop, h]
  simp only [if_neg hv, if_neg hg]

/-- The state set up before the loop: `heappush(open_set, (0, start))`,
`g_score[start] = 0`, `f_score[start] = heuristic(start)`. -/
def initState (eng : Engine) : SearchState :=
  { eng := eng
  , open_set := [(0, eng.start)]
  , came_from := []
  , g_score := [(eng.start, 0)]
  , f_score := [(eng.start, heuristic eng eng.start)]
  , explored := 0
  , pruned := 0
  , visited := [] }

/-- Fuel that always suffices for the loop (see `aStarLoop_total`). -/
def fuelBound (eng : Engine) : Nat := 5 * (eng.gridSize * eng.gridSize + 1) + 2

/-- `a_star_search()` together with the final state. -/
def a_star_search_full (eng : Engine) : Option (SearchResult × SearchState) :=
  aStarLoop (fuelBound eng) (initState eng)

/-- `a_star_search()`: the returned result dictionary. -/
def a_star_search (eng : Engine) : Option SearchResult :=
  (a_star_search_full eng).map Prod.fst

/-! ### The Flask endpoint `find_path` (`app.py`) -/

/-- The possible responses of the `/api/find-path` endpoint. -/
inductive ApiResult where
  | badRequest : String → ApiResult
  | ok : Option SearchResult → ApiResult
  deriving DecidableEq

/-- Whether the endpoint answered with the 400 error. -/
def ApiResult.isBadRequest : ApiResult → Bool
  | .badRequest _ => true
  | .ok _ => false

/-- `find_path()` of `app.py`: reject with a 400 error only when the grid
payload is missing or falsy (`if not grid:`), then build an engine of size
`len(grid)` with the supplied matrix and run the search.  No squareness
check is performed. -/
def find_path (gridData : Option Grid) : ApiResult :=
  match gridData with
  | none => .badRequest "Grid data required"
  | some g =>
    if g.isEmpty then .badRequest "Grid data required"
    else .ok (a_star_search (engineOfGrid g))

/-! ### Claims about construction, input validation and the initial state -/

/-- C2 (counterexample): constructing the engine with size `1 < 2` does not
fail — no `InvalidSizeError` exists anywhere in the code.  A perfectly
ordinary grid object is produced, with a 1×1 all-empty grid and
`start = goal = (0, 0)`. -/
theorem mkEngine_size_one_constructs :
    (mkEngine 1).grid = [[0]] ∧ (mkEngine 1).gridSize = 1 ∧
      (mkEngine 1).start = (mkEngine 1).goal := by
  refine ⟨rfl, rfl, by decide⟩

/-- C2 (amended): for every size below 2, construction succeeds anyway: the
size is stored unclamped, an all-empty `size × size` grid object is
produced, size 1 makes `start = goal`, and size 0 yields an empty grid. -/
theorem mkEngine_small_size (n : Nat) (h : n < 2) :
    (mkEngine n).gridSize = n ∧
    (mkEngine n).grid = List.replicate n (List.replicate n 0) ∧
    (n = 1 → (mkEngine n).start = (mkEngine n).goal) ∧
    (n = 0 → (mkEngine n).grid = []) := by
  refine ⟨rfl, rfl, ?_, ?_⟩
  · rintro rfl; decide
  · rintro rfl; rfl

theorem mkEngine_small_size_witness :
    (1 : Nat) < 2 ∧
      ((mkEngine 1).gridSize = 1 ∧
        (mkEngine 1).grid = List.replicate 1 (List.replicate 1 0) ∧
        ((1 : Nat) = 1 → (mkEngine 1).start = (mkEngine 1).goal) ∧
        ((1 : Nat) = 0 → (mkEngine 1).grid = [])) :=
  ⟨by decide, mkEngine_small_size 1 (by decide)⟩

/-- C3: the non-square 3×2 matrix `[[0,0],[0,0],[0,0]]` is not rejected by
`find_path` — the only validation is `if not grid:`, so the search runs on
the non-square input (in Python it then reads `grid[0][2]`, out of bounds,
raising `IndexError` instead of any `InvalidGridError`). -/
theorem find_path_accepts_non_square :
    ApiResult.isBadRequest (find_path (some [[0, 0], [0, 0], [0, 0]])) = false ∧
      find_path (some [[0, 0], [0, 0], [0, 0]]) =
        ApiResult.ok (a_star_search (engineOfGrid [[0, 0], [0, 0], [0, 0]])) ∧
      ¬ SquareGrid [[0, 0], [0, 0], [0, 0]] := by
  refine ⟨rfl, rfl, by decide⟩

/-- C7 (counterexample): the frontier is initialized with the single entry
`(0, start)` — priority `0`, not `h(start)`; on a 2×2 grid the Manhattan
distance from the start to the goal is `2 ≠ 0`. -/
theorem initState_priority_not_heuristic :
    (initState (mkEngine 2)).open_set = [(0, ((0 : Int), (0 : Int)))] ∧
      heuristic (mkEngine 2) (mkEngine 2).start = 2 ∧ (0 : Nat) ≠ 2 :=
  ⟨rfl, by decide, by decide⟩

/-- C7 (amended): at the start of every `a_star_search` call the frontier
holds exactly one entry, the start cell with priority `0` (not `h(start)`),
while `g_score[start] = 0` and `f_score[start] = h(start)`. -/
theorem initState_frontier (eng : Engine) :
    (initState eng).open_set = [(0, eng.start)] ∧
    assocFind (initState eng).g_score eng.start = some 0 ∧
    assocFind (initState eng).f_score eng.start = some (heuristic eng eng.start) := by
  refine ⟨rfl, ?_, ?_⟩ <;> simp [initState, assocFind]

/-! ### C8: the search never mutates the grid -/

theorem processNeighbor_eng (current : Pos) (gcur : Option Nat)
    (st : SearchState) (nb : Pos) :
    (processNeighbor current gcur st nb).eng = st.eng := by
  unfold processNeighbor
  split
  · rfl
  · split
    · rfl
    · split
      · rfl
      · rfl

theorem foldl_processNeighbor_eng (current : Pos) (gcur : Option Nat)
    (l : List Pos) (st : SearchState) :
    (l.foldl (processNeighbor current gcur) st).eng = st.eng := by
  induction l generalizing st with
  | nil => rfl
  | cons nb rest ih => rw [List.foldl_cons, ih, processNeighbor_eng]

theorem aStarLoop_preserves_eng :
    ∀ (fuel : Nat) (st : SearchState) (r : SearchResult) (st' : SearchState),
      aStarLoop fuel st = some (r, st') → st'.eng = st.eng := by
  intro fuel
  induction fuel with
  | zero => intro st r st' h; exact absurd h (by simp [aStarLoop])
  | succ fuel ih =>
    intro st r st' h
    cases hpop : popMin st.open_set with
    | none =>
      rw [aStarLoop_none fuel st hpop] at h
      simp only [Option.some.injEq, Prod.mk.injEq] at h
      rw [← h.2]
    | some epair =>
      obtain ⟨e, rest⟩ := epair
      by_cases hv : e.2 ∈ st.visited
      · rw [aStarLoop_stale fuel st hpop hv] at h
        have h2 := ih _ _ _ h
        exact h2
      · by_cases hgoal : e.2 = st.eng.goal
        · rw [aStarLoop_goal fuel st hpop hv hgoal] at h
          simp only [Option.some.injEq, Prod.mk.injEq] at h
          rw [← h.2]
        · rw [aStarLoop_relax fuel st hpop hv hgoal] at h
          have := ih _ _ _ h
          rw [this, foldl_processNeighbor_eng]

/-- C8: `a_star_search` never mutates the grid — the engine object carried
by the final state of every run is the engine the call started from, in
both the success and the no-path outcome. -/
theorem a_star_search_preserves_grid (eng : Engine) (r : SearchResult)
    (st' : SearchState) (h : a_star_search_full eng = some (r, st')) :
    st'.eng.grid = eng.grid := by
  have := aStarLoop_preserves_eng _ _ _ _ h
  rw [this]
  rfl

theorem a_star_search_preserves_grid_witness :
    a_star_search_full (engineOfGrid [[0]]) =
      some (({ path := [((0 : Int), (0 : Int))], visited := [(0, 0)]
             , explored := 1, pruned := 0, path_length := 1 } : SearchResult),
        ({ eng := { gridSize := 1, grid := [[0]], start := (0, 0), goal := (0, 0) }
         , open_set := [], came_from := [], g_score := [((0, 0), 0)]
         , f_score := [((0, 0), 0)], explored := 1, pruned := 0
         , visited := [(0, 0)] } : SearchState)) ∧
    ({ eng := { gridSize := 1, grid := [[0]], start := (0, 0), goal := (0, 0) }
     , open_set := [], came_from := [], g_score := [((0, 0), 0)]
     , f_score := [((0, 0), 0)], explored := 1, pruned := 0
     , visited := [(0, 0)] } : SearchState).eng.grid = (engineOfGrid [[0]]).grid :=
  ⟨by decide,
    a_star_search_preserves_grid (engineOfGrid [[0]])
      ({ path := [((0 : Int), (0 : Int))], visited := [(0, 0)]
       , explored := 1, pruned := 0, path_length := 1 } : SearchResult)
      ({ eng := { gridSize := 1, grid := [[0]], start := (0, 0), goal := (0, 0) }
       , open_set := [], came_from := [], g_score := [((0, 0), 0)]
       , f_score := [((0, 0), 0)], explored := 1, pruned := 0
       , visited := [(0, 0)] } : SearchState)
      (by decide)⟩

/-! ### Case analysis of `processNeighbor` -/

theorem processNeighbor_pruned_case {st : SearchState} {nb : Pos}
    (h : is_safe_path st.eng nb.1 nb.2 = false) (current : Pos) (gcur : Option Nat) :
    processNeighbor current gcur st nb = { st with pruned := st.pruned + 1 } := by
  rw [processNeighbor.eq_def, if_pos h]

theorem processNeighbor_safe_inf {st : SearchState} {nb : Pos}
    (h : is_safe_path st.eng nb.1 nb.2 = true) (current : Pos) :
    processNeighbor current none st nb = st := by
  rw [processNeighbor.eq_def, if_neg (by rw [h]; simp)]

/-- Whether `tentative_g_score < g_score[neighbor]` holds (unknown scores
count as infinite). -/
def improves (gs : List (Pos × Nat)) (nb : Pos) (tentative : Nat) : Bool :=
  match assocFind gs nb with
  | none => true
  | some gn => decide (tentative < gn)

theorem processNeighbor_safe_update {st : SearchState} {nb : Pos} {gc : Nat}
    (h : is_safe_path st.eng nb.1 nb.2 = true)
    (himp : improves st.g_score nb (gc + move_cost st.eng nb) = true)
    (current : Pos) :
    processNeighbor current (some gc) st nb =
      { st with
        came_from := (nb, current) :: st.came_from
        , g_score := (nb, gc + move_cost st.eng nb) :: st.g_score
        , f_score :=
            (nb, gc + move_cost st.eng nb + heuristic st.eng nb) :: st.f_score
        , open_set :=
            st.open_set ++ [(gc + move_cost st.eng nb + heuristic st.eng nb, nb)] } := by
  rw [processNeighbor.eq_def, if_neg (by rw [h]; simp)]
  rw [improves] at himp
  exact if_pos himp

theorem processNeighbor_safe_noupdate {st : SearchState} {nb : Pos} {gc : Nat}
    (h : is_safe_path st.eng nb.1 nb.2 = true)
    (himp : improves st.g_score nb (gc + move_cost st.eng nb) = false)
    (current : Pos) :
    processNeighbor current (some gc) st nb = st := by
  rw [processNeighbor.eq_def, if_neg (by rw [h]; simp)]
  rw [improves] at himp
  exact if_neg (by rw [himp]; simp)

/-- Exhaustive description of one neighbor-processing step. -/
theorem processNeighbor_cases (current : Pos) (gcur : Option Nat)
    (st : SearchState) (nb : Pos) :
    processNeighbor current gcur st nb = { st with pruned := st.pruned + 1 } ∨
    processNeighbor current gcur st nb = st ∨
    ∃ gc, gcur = some gc ∧ is_safe_path st.eng nb.1 nb.2 = true ∧
      improves st.g_score nb (gc + move_cost st.eng nb) = true ∧
      processNeighbor current gcur st nb =
        { st with
          came_from := (nb, current) :: st.came_from
          , g_score := (nb, gc + move_cost st.eng nb) :: st.g_score
          , f_score :=
              (nb, gc + move_cost st.eng nb + heuristic st.eng nb) :: st.f_score
          , open_set :=
              st.open_set ++
                [(gc + move_cost st.eng nb + heuristic st.eng nb, nb)] } := by
  by_cases hsafe : is_safe_path st.eng nb.1 nb.2 = false
  · exact Or.inl (processNeighbor_pruned_case hsafe current gcur)
  · have hsafe' : is_safe_path st.eng nb.1 nb.2 = true := by
      cases h : is_safe_path st.eng nb.1 nb.2
      · exact absurd h hsafe
      · rfl
    cases gcur with
    | none => exact Or.inr (Or.inl (processNeighbor_safe_inf hsafe' current))
    | some gc =>
      cases himp : improves st.g_score nb (gc + move_cost st.eng nb) with
      | false =>
        exact Or.inr (Or.inl (processNeighbor_safe_noupdate hsafe' himp current))
      | true =>
        exact Or.inr (Or.inr ⟨gc, rfl, hsafe', himp,
          processNeighbor_safe_update hsafe' himp current⟩)

theorem processNeighbor_visited (current : Pos) (gcur : Option Nat)
    (st : SearchState) (nb : Pos) :
    (processNeighbor current gcur st nb).visited = st.visited := by
  rcases processNeighbor_cases current gcur st nb with h | h | ⟨gc, -, -, -, h⟩ <;>
    rw [h]

theorem foldl_processNeighbor_visited (current : Pos) (gcur : Option Nat)
    (l : List Pos) (st : SearchState) :
    (l.foldl (processNeighbor current gcur) st).visited = st.visited := by
  induction l generalizing st with
  | nil => rfl
  | cons nb rest ih => rw [List.foldl_cons, ih, processNeighbor_visited]

theorem processNeighbor_open_mem (current : Pos) (gcur : Option Nat)
    (st : SearchState) (nb : Pos) :
    ∀ e ∈ (processNeighbor current gcur st nb).open_set,
      e ∈ st.open_set ∨ e.2 = nb := by
  rcases processNeighbor_cases current gcur st nb with h | h | ⟨gc, -, -, -, h⟩ <;>
    rw [h]
  · exact fun e he => Or.inl he
  · exact fun e he => Or.inl he
  · intro e he
    rcases List.mem_append.mp he with he | he
    · exact Or.inl he
    · rw [List.mem_singleton.mp he]
      exact Or.inr rfl

theorem processNeighbor_open_length (current : Pos) (gcur : Option Nat)
    (st : SearchState) (nb : Pos) :
    (processNeighbor current gcur st nb).open_set.length ≤
      st.open_set.length + 1 := by
  rcases processNeighbor_cases current gcur st nb with h | h | ⟨gc, -, -, -, h⟩ <;>
    rw [h] <;> simp

theorem foldl_processNeighbor_open_mem (current : Pos) (gcur : Option Nat)
    (l : List Pos) (st : SearchState) :
    ∀ e ∈ (l.foldl (processNeighbor current gcur) st).open_set,
      e ∈ st.open_set ∨ e.2 ∈ l := by
  induction l generalizing st with
  | nil => exact fun e he => Or.inl he
  | cons nb rest ih =>
    intro e he
    rw [List.foldl_cons] at he
    rcases ih _ e he with he' | he'
    · rcases processNeighbor_open_mem current gcur st nb e he' with h | h
      · exact Or.inl h
      · exact Or.inr (by rw [h]; exact List.mem_cons_self nb rest)
    · exact Or.inr (List.mem_cons_of_mem _ he')

theorem foldl_processNeighbor_open_length (current : Pos) (gcur : Option Nat)
    (l : List Pos) (st : SearchState) :
    (l.foldl (processNeighbor current gcur) st).open_set.length ≤
      st.open_set.length + l.length := by
  induction l generalizing st with
  | nil => simp
  | cons nb rest ih =>
    rw [List.foldl_cons]
    calc ((rest.foldl (processNeighbor current gcur)
          (processNeighbor current gcur st nb)).open_set).length ≤
        (processNeighbor current gcur st nb).open_set.length + rest.length := ih _
      _ ≤ st.open_set.length + 1 + rest.length :=
        Nat.add_le_add_right (processNeighbor_open_length current gcur st nb) _
      _ = st.open_set.length + (nb :: rest).length := by simp; omega

/-! ### C9: termination of the search loop -/

/-- Positions that can ever sit in the frontier: the start, or an in-bounds
cell. -/
def allowedPos (eng : Engine) (p : Pos) : Prop :=
  p = eng.start ∨ inBounds eng p.1 p.2 = true

/-- The finite set of in-bounds positions. -/
def boundsFinset (n : Nat) : Finset Pos :=
  (Finset.range n ×ˢ Finset.range n).image fun ab => ((ab.1 : Int), (ab.2 : Int))

theorem card_boundsFinset_le (n : Nat) : (boundsFinset n).card ≤ n * n := by
  calc (boundsFinset n).card ≤ (Finset.range n ×ˢ Finset.range n).card :=
      Finset.card_image_le
    _ = n * n := by rw [Finset.card_product, Finset.card_range]

theorem mem_boundsFinset {eng : Engine} {p : Pos}
    (h : inBounds eng p.1 p.2 = true) : p ∈ boundsFinset eng.gridSize := by
  obtain ⟨h1, h2, h3, h4⟩ := (inBounds_iff eng p.1 p.2).mp h
  rw [boundsFinset, Finset.mem_image]
  refine ⟨(p.1.toNat, p.2.toNat), ?_, ?_⟩
  · rw [Finset.mem_product, Finset.mem_range, Finset.mem_range]
    constructor <;> omega
  · ext
    · simp; omega
    · simp; omega

/-- Invariants needed for the termination measure. -/
def InvT (st : SearchState) : Prop :=
  st.visited.Nodup ∧ (∀ v ∈ st.visited, allowedPos st.eng v) ∧
    (∀ e ∈ st.open_set, allowedPos st.eng e.2)

/-- The visited list cannot outgrow the grid (plus the start). -/
theorem visited_length_le {st : SearchState} (h : InvT st) :
    st.visited.length ≤ st.eng.gridSize * st.eng.gridSize + 1 := by
  classical
  obtain ⟨hnd, hall, -⟩ := h
  have hsub : st.visited.toFinset ⊆
      insert st.eng.start (boundsFinset st.eng.gridSize) := by
    intro p hp
    rw [List.mem_toFinset] at hp
    rcases hall p hp with h | h
    · rw [h]; exact Finset.mem_insert_self _ _
    · exact Finset.mem_insert_of_mem (mem_boundsFinset h)
  calc st.visited.length = st.visited.toFinset.card :=
      (List.toFinset_card_of_nodup hnd).symm
    _ ≤ (insert st.eng.start (boundsFinset st.eng.gridSize)).card :=
      Finset.card_le_card hsub
    _ ≤ (boundsFinset st.eng.gridSize).card + 1 := Finset.card_insert_le _ _
    _ ≤ st.eng.gridSize * st.eng.gridSize + 1 :=
      Nat.add_le_add_right (card_boundsFinset_le _) 1

/-- The loop measure: every iteration strictly decreases it. -/
def measure (st : SearchState) : Nat :=
  5 * (st.eng.gridSize * st.eng.gridSize + 1 - st.visited.length) +
    st.open_set.length

/-- With enough fuel with respect to the measure, the loop returns. -/
theorem aStarLoop_total :
    ∀ (fuel : Nat) (st : SearchState), InvT st → measure st < fuel →
      (aStarLoop fuel st).isSome = true := by
  intro fuel
  induction fuel with
  | zero => intro st _ h; exact absurd h (by omega)
  | succ fuel ih =>
    intro st hinv hmeas
    cases hpop : popMin st.open_set with
    | none => rw [aStarLoop_none fuel st hpop]; rfl
    | some epair =>
      obtain ⟨e, rest⟩ := epair
      obtain ⟨hmem, -, hrest⟩ := popMin_spec hpop
      have hopen_pos : 0 < st.open_set.length := List.length_pos_of_mem hmem
      have hrest_len : rest.length = st.open_set.length - 1 := by
        rw [hrest]; exact length_erase_of_mem hmem
      rw [measure] at hmeas
      by_cases hv : e.2 ∈ st.visited
      · rw [aStarLoop_stale fuel st hpop hv]
        apply ih
        · refine ⟨hinv.1, hinv.2.1, ?_⟩
          intro x hx
          exact hinv.2.2 x (by rw [hrest] at hx; exact List.mem_of_mem_erase hx)
        · show 5 * (st.eng.gridSize * st.eng.gridSize + 1 - st.visited.length) +
            rest.length < fuel
          omega
      · by_cases hgoal : e.2 = st.eng.goal
        · rw [aStarLoop_goal fuel st hpop hv hgoal]; rfl
        · rw [aStarLoop_relax fuel st hpop hv hgoal]
          have heng2 : ((get_neighbors st.eng e.2.1 e.2.2).foldl
              (processNeighbor e.2 (assocFind st.g_score e.2))
              { st with open_set := rest
                      , visited := e.2 :: st.visited
                      , explored := st.explored + 1 }).eng = st.eng :=
            foldl_processNeighbor_eng _ _ _ _
          have hvis2 : ((get_neighbors st.eng e.2.1 e.2.2).foldl
              (processNeighbor e.2 (assocFind st.g_score e.2))
              { st with open_set := rest
                      , visited := e.2 :: st.visited
                      , explored := st.explored + 1 }).visited = e.2 :: st.visited :=
            foldl_processNeighbor_visited _ _ _ _
          have holen : ((get_neighbors st.eng e.2.1 e.2.2).foldl
              (processNeighbor e.2 (assocFind st.g_score e.2))
              { st with open_set := rest
                      , visited := e.2 :: st.visited
                      , explored := st.explored + 1 }).open_set.length ≤
              rest.length + (get_neighbors st.eng e.2.1 e.2.2).length :=
            foldl_processNeighbor_open_length _ _ _ _
          have hnb4 : (get_neighbors st.eng e.2.1 e.2.2).length ≤ 4 :=
            length_get_neighbors_le st.eng e.2.1 e.2.2
          apply ih
          · refine ⟨?_, ?_, ?_⟩
            · rw [hvis2]
              exact List.Nodup.cons hv hinv.1
            · rw [hvis2, heng2]
              intro v hv'
              rcases List.mem_cons.mp hv' with rfl | hv'
              · exact hinv.2.2 e hmem
              · exact hinv.2.1 v hv'
            · rw [heng2]
              intro x hx
              rcases foldl_processNeighbor_open_mem _ _ _ _ x hx with h | h
              · refine hinv.2.2 x ?_
                have h' : x ∈ rest := h
                rw [hrest] at h'
                exact List.mem_of_mem_erase h'
              · exact Or.inr (inBounds_of_mem_get_neighbors h)
          · have hK : (e.2 :: st.visited).length ≤
                st.eng.gridSize * st.eng.gridSize + 1 := by
              have h := @visited_length_le ((get_neighbors st.eng e.2.1 e.2.2).foldl
                (processNeighbor e.2 (assocFind st.g_score e.2))
                { st with open_set := rest
                        , visited := e.2 :: st.visited
                        , explored := st.explored + 1 }) ?_
              · rw [hvis2, heng2] at h
                exact h
              · refine ⟨?_, ?_, ?_⟩
                · rw [hvis2]
                  exact List.Nodup.cons hv hinv.1
                · rw [hvis2, heng2]
                  intro v hv'
                  rcases List.mem_cons.mp hv' with rfl | hv'
                  · exact hinv.2.2 e hmem
                  · exact hinv.2.1 v hv'
                · rw [heng2]
                  intro x hx
                  rcases foldl_processNeighbor_open_mem _ _ _ _ x hx with h | h
                  · refine hinv.2.2 x ?_
                    have h' : x ∈ rest := h
                    rw [hrest] at h'
                    exact List.mem_of_mem_erase h'
                  · exact Or.inr (inBounds_of_mem_get_neighbors h)
            rw [measure, heng2, hvis2]
            rw [List.length_cons] at hK ⊢
            omega

/-- C9: `a_star_search` terminates on every grid of every size: with the
fuel bound `5 * (gridSize^2 + 1) + 2` the loop always runs to completion
and returns a result, never running out of fuel. -/
theorem a_star_search_terminates (eng : Engine) :
    (a_star_search eng).isSome = true := by
  have hinv : InvT (initState eng) := by
    refine ⟨List.nodup_nil, ?_, ?_⟩
    · intro v hv
      exact absurd hv (List.not_mem_nil v)
    · intro e he
      rw [initState] at he
      rcases List.mem_singleton.mp he with rfl
      exact Or.inl rfl
  have hmeas : measure (initState eng) < fuelBound eng := by
    show 5 * (eng.gridSize * eng.gridSize + 1 - 0) + 1 <
      5 * (eng.gridSize * eng.gridSize + 1) + 2
    omega
  have h := aStarLoop_total (fuelBound eng) (initState eng) hinv hmeas
  rw [a_star_search, a_star_search_full]
  cases hq : aStarLoop (fuelBound eng) (initState eng) with
  | none =>
    rw [hq] at h
    exact absurd h (by simp)
  | some p => rfl

/-! ### Safety-respecting paths and their costs -/

/-- One admissible search step: `nb` is an in-bounds 4-neighbor of `z` that
passes the pruning predicate. -/
def SafeStep (eng : Engine) (z nb : Pos) : Prop :=
  nb ∈ get_neighbors eng z.1 z.2 ∧ is_safe_path eng nb.1 nb.2 = true

/-- Safety-respecting chains out of the start cell: the one-cell chain at
the start (which is exempt from the safety predicate), extended by safe
steps.  `SafeChain eng z p` means `p` runs from `eng.start` to `z` along
4-directional in-bounds steps whose every target satisfies
`is_safe_path`. -/
inductive SafeChain (eng : Engine) : Pos → List Pos → Prop
  | base : SafeChain eng eng.start [eng.start]
  | cons {z nb : Pos} {p : List Pos} : SafeChain eng z p →
      nb ∈ get_neighbors eng z.1 z.2 → is_safe_path eng nb.1 nb.2 = true →
      SafeChain eng nb (p ++ [nb])

/-- Total movement cost of a path: the sum of `move_cost` (2 on a
`DANGEROUS` cell, 1 otherwise) over all cells after the first. -/
def chainCost (eng : Engine) (p : List Pos) : Nat :=
  (p.tail.map (move_cost eng)).sum

theorem SafeChain.ne_nil {eng : Engine} {z : Pos} {p : List Pos}
    (h : SafeChain eng z p) : p ≠ [] := by
  cases h <;> simp

theorem chainCost_append {eng : Engine} {p : List Pos} (hp : p ≠ []) (nb : Pos) :
    chainCost eng (p ++ [nb]) = chainCost eng p + move_cost eng nb := by
  rw [chainCost, chainCost]
  cases p with
  | nil => exact absurd rfl hp
  | cons a as => simp

/-- Every cell after the first of a safe chain satisfies the safety
predicate. -/
theorem SafeChain.tail_safe {eng : Engine} {z : Pos} {p : List Pos}
    (h : SafeChain eng z p) : ∀ q ∈ p.tail, is_safe_path eng q.1 q.2 = true := by
  induction h with
  | base => intro q hq; simp at hq
  | cons hch hmem hsafe ih =>
    rename_i z nb p
    intro q hq
    have hp : p ≠ [] := hch.ne_nil
    cases p with
    | nil => exact absurd rfl hp
    | cons a as =>
      rw [List.cons_append, List.tail_cons] at hq
      rcases List.mem_append.mp hq with hq | hq
      · exact ih q (by rw [List.tail_cons]; exact hq)
      · rw [List.mem_singleton.mp hq]
        exact hsafe

theorem SafeChain.head {eng : Engine} {z : Pos} {p : List Pos}
    (h : SafeChain eng z p) : p.head? = some eng.start := by
  induction h with
  | base => rfl
  | cons hch hmem hsafe ih =>
    rename_i z nb p
    cases p with
    | nil => exact absurd rfl hch.ne_nil
    | cons a as => simpa using ih

/-- Comparison of heap entries bounds the priority component. -/
theorem entryLE_fst {a b : Entry} (h : entryLE a b = true) : a.1 ≤ b.1 := by
  simp only [entryLE, Bool.or_eq_true, Bool.and_eq_true, decide_eq_true_eq] at h
  omega

/-! ### Reconstruction chains -/

theorem assocFind_mem_keys {β : Type} {l : List (Pos × β)} {p : Pos}
    (h : (assocFind l p).isSome = true) : p ∈ l.map Prod.fst := by
  induction l with
  | nil => simp [assocFind] at h
  | cons kv rest ih =>
    obtain ⟨k, v⟩ := kv
    rw [assocFind] at h
    by_cases hk : p = k
    · rw [hk, List.map_cons]
      exact List.mem_cons_self k _
    · rw [if_neg hk] at h
      exact List.mem_cons_of_mem _ (ih h)

/-- A `came_from` chain: a safe chain each of whose non-initial nodes
carries a `came_from` link to its predecessor and a `g_score` bounding the
accumulated cost. -/
inductive LinkChain (eng : Engine) (cf : List (Pos × Pos))
    (gs : List (Pos × Nat)) : Pos → Nat → List Pos → Prop
  | base (h0 : assocFind cf eng.start = none)
      (hg : assocFind gs eng.start = some 0) :
      LinkChain eng cf gs eng.start 0 [eng.start]
  | cons {q : Pos} {gq : Nat} {ch : List Pos} {p : Pos} {gp : Nat} :
      LinkChain eng cf gs q gq ch →
      assocFind cf p = some q → assocFind gs p = some gp →
      SafeStep eng q p → gq + move_cost eng p ≤ gp →
      LinkChain eng cf gs p gp (ch ++ [p])

theorem LinkChain.safeChain {eng : Engine} {cf : List (Pos × Pos)}
    {gs : List (Pos × Nat)} {p : Pos} {gp : Nat} {ch : List Pos}
    (h : LinkChain eng cf gs p gp ch) : SafeChain eng p ch := by
  induction h with
  | base h0 hg => exact SafeChain.base
  | cons hch hcf hg hstep hle ih => exact SafeChain.cons ih hstep.1 hstep.2

theorem LinkChain.cost_le {eng : Engine} {cf : List (Pos × Pos)}
    {gs : List (Pos × Nat)} {p : Pos} {gp : Nat} {ch : List Pos}
    (h : LinkChain eng cf gs p gp ch) : chainCost eng ch ≤ gp := by
  induction h with
  | base h0 hg => exact Nat.le_refl 0
  | cons hch hcf hg hstep hle ih =>
    rename_i q gq ch p gp
    rw [chainCost_append hch.safeChain.ne_nil]
    omega

/-- Along a link chain all nodes carry `g_score`s bounded by the
endpoint's, the chain has no duplicates, and every non-start node is a
`came_from` key. -/
theorem LinkChain.nodup_bound {eng : Engine} {cf : List (Pos × Pos)}
    {gs : List (Pos × Nat)} {p : Pos} {gp : Nat} {ch : List Pos}
    (h : LinkChain eng cf gs p gp ch) :
    ch.Nodup ∧ (∀ m ∈ ch, ∃ gm, assocFind gs m = some gm ∧ gm ≤ gp) ∧
      (∀ m ∈ ch.tail, (assocFind cf m).isSome = true) := by
  induction h with
  | base h0 hg =>
    refine ⟨List.nodup_singleton _, ?_, ?_⟩
    · intro m hm
      rw [List.mem_singleton.mp hm]
      exact ⟨0, hg, Nat.le_refl 0⟩
    · intro m hm; simp at hm
  | cons hch hcf hg hstep hle ih =>
    rename_i q gq ch p gp
    obtain ⟨hnd, hbound, hkeys⟩ := ih
    have hmove := one_le_move_cost eng p
    have hgqlt : gq < gp := by omega
    have hpnotin : p ∉ ch := by
      intro hmem
      obtain ⟨gm, hgm, hgmle⟩ := hbound p hmem
      rw [hg] at hgm
      injection hgm with hgm
      omega
    refine ⟨?_, ?_, ?_⟩
    · rw [List.nodup_append]
      exact ⟨hnd, List.nodup_singleton p, by
        intro a ha hb
        rw [List.mem_singleton.mp hb] at ha
        exact hpnotin ha⟩
    · intro m hm
      rcases List.mem_append.mp hm with hm | hm
      · obtain ⟨gm, hgm, hgmle⟩ := hbound m hm
        exact ⟨gm, hgm, by omega⟩
      · rw [List.mem_singleton.mp hm]
        exact ⟨gp, hg, Nat.le_refl gp⟩
    · have hchne := hch.safeChain.ne_nil
      cases ch with
      | nil => exact absurd rfl hchne
      | cons a as =>
        intro m hm
        rw [List.cons_append, List.tail_cons] at hm
        rcases List.mem_append.mp hm with hm | hm
        · exact hkeys m (by rw [List.tail_cons]; exact hm)
        · rw [List.mem_singleton.mp hm, hcf]
          rfl

/-- A link chain is no longer than the `came_from` list plus one. -/
theorem LinkChain.length_le {eng : Engine} {cf : List (Pos × Pos)}
    {gs : List (Pos × Nat)} {p : Pos} {gp : Nat} {ch : List Pos}
    (h : LinkChain eng cf gs p gp ch) : ch.length ≤ cf.length + 1 := by
  classical
  obtain ⟨hnd, -, hkeys⟩ := h.nodup_bound
  have hchne := h.safeChain.ne_nil
  have htail_nd : ch.tail.Nodup := List.Nodup.sublist (List.tail_sublist ch) hnd
  have hsub : ch.tail.toFinset ⊆ (cf.map Prod.fst).toFinset := by
    intro m hm
    rw [List.mem_toFinset] at hm ⊢
    exact assocFind_mem_keys (hkeys m hm)
  have h1 : ch.tail.length ≤ cf.length := by
    calc ch.tail.length = ch.tail.toFinset.card :=
        (List.toFinset_card_of_nodup htail_nd).symm
      _ ≤ (cf.map Prod.fst).toFinset.card := Finset.card_le_card hsub
      _ ≤ (cf.map Prod.fst).length := List.toFinset_card_le _
      _ = cf.length := List.length_map _ _
  cases ch with
  | nil => exact absurd rfl hchne
  | cons a as =>
    rw [List.tail_cons] at h1
    rw [List.length_cons]
    omega

/-- `reconAux` follows exactly the link chain when given enough fuel. -/
theorem reconAux_linkChain {eng : Engine} {cf : List (Pos × Pos)}
    {gs : List (Pos × Nat)} {p : Pos} {gp : Nat} {ch : List Pos}
    (h : LinkChain eng cf gs p gp ch) :
    ∀ (fuel : Nat) (acc : List Pos), ch.length ≤ fuel →
      reconAux cf fuel p (p :: acc) = ch ++ acc := by
  induction h with
  | base h0 hg =>
    intro fuel acc hfuel
    cases fuel with
    | zero => simp at hfuel
    | succ f =>
      rw [reconAux, h0]
      rfl
  | cons hch hcf hg hstep hle ih =>
    rename_i q gq ch p gp
    intro fuel acc hfuel
    cases fuel with
    | zero => simp at hfuel
    | succ f =>
      rw [reconAux, hcf]
      have hlen : ch.length ≤ f := by
        rw [List.length_append, List.length_singleton] at hfuel
        omega
      show reconAux cf f q (q :: p :: acc) = ch ++ [p] ++ acc
      rw [ih f (p :: acc) hlen, List.append_assoc]
      rfl

/-- `reconstruct_path` recovers the link chain of the goal: the fuel
`came_from.length + 1` is sufficient. -/
theorem reconstruct_path_eq {eng : Engine} {cf : List (Pos × Pos)}
    {gs : List (Pos × Nat)} {p : Pos} {gp : Nat} {ch : List Pos}
    (h : LinkChain eng cf gs p gp ch) : reconstruct_path cf p = ch := by
  rw [reconstruct_path]
  have := reconAux_linkChain h (cf.length + 1) [] h.length_le
  rw [this, List.append_nil]

/-- From the `link` invariant, every scored node is reachable by a link
chain. -/
theorem linkChain_exists (eng : Engine) {cf : List (Pos × Pos)}
    {gs : List (Pos × Nat)}
    (hstart : assocFind gs eng.start = some 0)
    (hcfstart : assocFind cf eng.start = none)
    (hlink : ∀ p gp, assocFind gs p = some gp → p = eng.start ∨
      ∃ q gq, assocFind cf p = some q ∧ assocFind gs q = some gq ∧
        SafeStep eng q p ∧ gq + move_cost eng p ≤ gp) :
    ∀ (gp : Nat) (p : Pos), assocFind gs p = some gp →
      ∃ ch, LinkChain eng cf gs p gp ch := by
  intro gp
  induction gp using Nat.strong_induction_on with
  | _ gp ih =>
    intro p hp
    rcases hlink p gp hp with rfl | ⟨q, gq, hcf, hgq, hstep, hle⟩
    · have h0 : gp = 0 := by
        rw [hstart] at hp
        injection hp with hp
        omega
      subst h0
      exact ⟨[eng.start], LinkChain.base hcfstart hstart⟩
    · have hlt : gq < gp := by
        have := one_le_move_cost eng p
        omega
      obtain ⟨ch, hch⟩ := ih gq hlt q hgq
      exact ⟨ch ++ [p], LinkChain.cons hch hcf hp hstep hle⟩

/-! ### The search-loop invariant -/

/-- Invariant holding at the head of every loop iteration (after the
special first iteration that settles the start). -/
structure LoopInv (st : SearchState) : Prop where
  gstart : assocFind st.g_score st.eng.start = some 0
  start_vis : st.eng.start ∈ st.visited
  cf_start : assocFind st.came_from st.eng.start = none
  link : ∀ p gp, assocFind st.g_score p = some gp → p = st.eng.start ∨
    ∃ q gq, assocFind st.came_from p = some q ∧
      assocFind st.g_score q = some gq ∧ SafeStep st.eng q p ∧
      gq + move_cost st.eng p ≤ gp
  open_g : ∀ e ∈ st.open_set, ∃ gv, assocFind st.g_score e.2 = some gv ∧
    gv + heuristic st.eng e.2 ≤ e.1
  fringe : ∀ p gp, assocFind st.g_score p = some gp → p ∈ st.visited ∨
    (gp + heuristic st.eng p, p) ∈ st.open_set
  vis_g : ∀ v ∈ st.visited, ∃ gv, assocFind st.g_score v = some gv
  vis_opt : ∀ v ∈ st.visited, ∀ gv, assocFind st.g_score v = some gv →
    ∀ P, SafeChain st.eng v P → gv ≤ chainCost st.eng P
  closed : ∀ v ∈ st.visited, ∀ nb ∈ get_neighbors st.eng v.1 v.2,
    is_safe_path st.eng nb.1 nb.2 = true →
    ∃ gn gv, assocFind st.g_score nb = some gn ∧
      assocFind st.g_score v = some gv ∧ gn ≤ gv + move_cost st.eng nb
  goal_unvis : st.eng.goal ∉ st.visited

/-- With an empty frontier, every safely-reachable cell has been settled
with an optimal score. -/
theorem loopInv_empty_all_visited {st : SearchState} (hinv : LoopInv st)
    (hopen : st.open_set = []) :
    ∀ (z : Pos) (P : List Pos), SafeChain st.eng z P →
      z ∈ st.visited ∧ ∃ gz, assocFind st.g_score z = some gz ∧
        gz ≤ chainCost st.eng P := by
  intro z P hP
  induction hP with
  | base =>
    exact ⟨hinv.start_vis, 0, hinv.gstart, Nat.zero_le _⟩
  | cons hch hmem hsafe ih =>
    rename_i z nb P
    obtain ⟨hzvis, gz, hgz, hgzle⟩ := ih
    obtain ⟨gn, gv, hgn, hgv, hle⟩ := hinv.closed z hzvis nb hmem hsafe
    have hgveq : gv = gz := by
      rw [hgz] at hgv
      injection hgv with h
      exact h.symm
    subst hgveq
    have hnbvis : nb ∈ st.visited := by
      rcases hinv.fringe nb gn hgn with h | h
      · exact h
      · rw [hopen] at h
        exact absurd h (List.not_mem_nil _)
    refine ⟨hnbvis, gn, hgn, ?_⟩
    rw [chainCost_append hch.ne_nil]
    omega

/-- The frontier covering argument: every safe chain ends in a settled
cell, or passes through an unsettled cell `y` whose score plus heuristic is
bounded by the chain cost plus the endpoint's heuristic. -/
theorem loopInv_cover {st : SearchState} (hinv : LoopInv st) :
    ∀ (z : Pos) (P : List Pos), SafeChain st.eng z P →
      z ∈ st.visited ∨ ∃ y gy, y ∉ st.visited ∧
        assocFind st.g_score y = some gy ∧
        gy + heuristic st.eng y ≤ chainCost st.eng P + heuristic st.eng z := by
  intro z P hP
  induction hP with
  | base => exact Or.inl hinv.start_vis
  | cons hch hmem hsafe ih =>
    rename_i z nb P
    by_cases hnb : nb ∈ st.visited
    · exact Or.inl hnb
    · right
      have hcost : chainCost st.eng (P ++ [nb]) =
          chainCost st.eng P + move_cost st.eng nb := chainCost_append hch.ne_nil nb
      rcases ih with hz | ⟨y, gy, hyn, hgy, hble⟩
      · obtain ⟨gn, gv, hgn, hgv, hle⟩ := hinv.closed z hz nb hmem hsafe
        have hgvle : gv ≤ chainCost st.eng P := hinv.vis_opt z hz gv hgv P hch
        exact ⟨nb, gn, hnb, hgn, by rw [hcost]; omega⟩
      · have hcons : heuristic st.eng z ≤ heuristic st.eng nb + 1 :=
          heuristic_consistent hmem
        have hmove := one_le_move_cost st.eng nb
        exact ⟨y, gy, hyn, hgy, by rw [hcost]; omega⟩

/-- When a fresh cell is popped, its score is optimal among safe chains. -/
theorem loopInv_pop_optimal {st : SearchState} (hinv : LoopInv st) {e : Entry}
    {rest : List Entry} (hpop : popMin st.open_set = some (e, rest))
    (hv : e.2 ∉ st.visited) :
    ∃ gc, assocFind st.g_score e.2 = some gc ∧
      ∀ P, SafeChain st.eng e.2 P → gc ≤ chainCost st.eng P := by
  obtain ⟨hmem, hmin, -⟩ := popMin_spec hpop
  obtain ⟨gc, hgc, hfle⟩ := hinv.open_g e hmem
  refine ⟨gc, hgc, ?_⟩
  intro P hP
  rcases loopInv_cover hinv e.2 P hP with h | ⟨y, gy, hyn, hgy, hble⟩
  · exact absurd h hv
  · rcases hinv.fringe y gy hgy with h | h
    · exact absurd h hyn
    · have h1 : e.1 ≤ gy + heuristic st.eng y :=
        entryLE_fst (hmin (gy + heuristic st.eng y, y) h)
      omega

/-! ### Preservation of the invariant through one relaxation -/

/-- Invariant during the neighbor-relaxation fold of one freshly settled
cell `c` with (fixed) score `gc`: the loop invariant, except that
closedness at `c` covers only the already-processed neighbors `done`. -/
structure RelaxInv (c : Pos) (gc : Nat) (done : List Pos)
    (st : SearchState) : Prop where
  gstart : assocFind st.g_score st.eng.start = some 0
  start_vis : st.eng.start ∈ st.visited
  cf_start : assocFind st.came_from st.eng.start = none
  link : ∀ p gp, assocFind st.g_score p = some gp → p = st.eng.start ∨
    ∃ q gq, assocFind st.came_from p = some q ∧
      assocFind st.g_score q = some gq ∧ SafeStep st.eng q p ∧
      gq + move_cost st.eng p ≤ gp
  open_g : ∀ e ∈ st.open_set, ∃ gv, assocFind st.g_score e.2 = some gv ∧
    gv + heuristic st.eng e.2 ≤ e.1
  fringe : ∀ p gp, assocFind st.g_score p = some gp → p ∈ st.visited ∨
    (gp + heuristic st.eng p, p) ∈ st.open_set
  vis_g : ∀ v ∈ st.visited, ∃ gv, assocFind st.g_score v = some gv
  vis_opt : ∀ v ∈ st.visited, ∀ gv, assocFind st.g_score v = some gv →
    ∀ P, SafeChain st.eng v P → gv ≤ chainCost st.eng P
  closed_old : ∀ v ∈ st.visited, v ≠ c →
    ∀ nb ∈ get_neighbors st.eng v.1 v.2,
    is_safe_path st.eng nb.1 nb.2 = true →
    ∃ gn gv, assocFind st.g_score nb = some gn ∧
      assocFind st.g_score v = some gv ∧ gn ≤ gv + move_cost st.eng nb
  hgc : assocFind st.g_score c = some gc
  c_vis : c ∈ st.visited
  c_opt : ∀ P, SafeChain st.eng c P → gc ≤ chainCost st.eng P
  closed_c : ∀ nb ∈ done, is_safe_path st.eng nb.1 nb.2 = true →
    ∃ gn, assocFind st.g_score nb = some gn ∧
      gn ≤ gc + move_cost st.eng nb
  goal_unvis : st.eng.goal ∉ st.visited

/-- Processing one more neighbor of `c` preserves the relaxation
invariant. -/
theorem relaxInv_step {c : Pos} {gc : Nat} {done : List Pos}
    {st : SearchState} (hinv : RelaxInv c gc done st) {nb : Pos}
    (hnb : nb ∈ get_neighbors st.eng c.1 c.2) :
    RelaxInv c gc (done ++ [nb]) (processNeighbor c (some gc) st nb) := by
  have hnbc : nb ≠ c := by
    intro h
    exact ne_of_mem_get_neighbors hnb (by rw [h])
  by_cases hsafe : is_safe_path st.eng nb.1 nb.2 = false
  · rw [processNeighbor_pruned_case hsafe]
    refine ⟨hinv.gstart, hinv.start_vis, hinv.cf_start, hinv.link, hinv.open_g,
      hinv.fringe, hinv.vis_g, hinv.vis_opt, hinv.closed_old, hinv.hgc,
      hinv.c_vis, hinv.c_opt, ?_, hinv.goal_unvis⟩
    intro m hm hms
    rcases List.mem_append.mp hm with hm | hm
    · exact hinv.closed_c m hm hms
    · rw [List.mem_singleton.mp hm] at hms
      rw [hms] at hsafe
      simp at hsafe
  · have hsafeT : is_safe_path st.eng nb.1 nb.2 = true := by
      cases h : is_safe_path st.eng nb.1 nb.2
      · exact absurd h hsafe
      · rfl
    cases himp : improves st.g_score nb (gc + move_cost st.eng nb) with
    | false =>
      rw [processNeighbor_safe_noupdate hsafeT himp]
      obtain ⟨gn, hgn, hgnle⟩ : ∃ gn, assocFind st.g_score nb = some gn ∧
          gn ≤ gc + move_cost st.eng nb := by
        rw [improves] at himp
        cases hfind : assocFind st.g_score nb with
        | none => rw [hfind] at himp; exact absurd himp (by simp)
        | some gn =>
          rw [hfind] at himp
          exact ⟨gn, rfl, by
            have := of_decide_eq_false himp
            omega⟩
      refine ⟨hinv.gstart, hinv.start_vis, hinv.cf_start, hinv.link, hinv.open_g,
        hinv.fringe, hinv.vis_g, hinv.vis_opt, hinv.closed_old, hinv.hgc,
        hinv.c_vis, hinv.c_opt, ?_, hinv.goal_unvis⟩
      intro m hm hms
      rcases List.mem_append.mp hm with hm | hm
      · exact hinv.closed_c m hm hms
      · rw [List.mem_singleton.mp hm]
        exact ⟨gn, hgn, hgnle⟩
    | true =>
      rw [processNeighbor_safe_update hsafeT himp]
      -- the neighbor cannot already be settled
      have hnb_unvis : nb ∉ st.visited := by
        intro hmem
        obtain ⟨gnb, hgnb⟩ := hinv.vis_g nb hmem
        obtain ⟨ch, hch⟩ := linkChain_exists st.eng hinv.gstart hinv.cf_start
          hinv.link gc c hinv.hgc
        have hchain : SafeChain st.eng nb (ch ++ [nb]) :=
          SafeChain.cons hch.safeChain hnb hsafeT
        have hcost : chainCost st.eng (ch ++ [nb]) ≤ gc + move_cost st.eng nb := by
          rw [chainCost_append hch.safeChain.ne_nil]
          have := hch.cost_le
          omega
        have hopt := hinv.vis_opt nb hmem gnb hgnb (ch ++ [nb]) hchain
        rw [improves, hgnb] at himp
        have := of_decide_eq_true himp
        omega
      have hnb_ne_start : nb ≠ st.eng.start := by
        intro h
        rw [improves, h, hinv.gstart] at himp
        have := of_decide_eq_true himp
        have := one_le_move_cost st.eng nb
        omega
      -- notation for the updated finds
      have hfind_g : ∀ p, assocFind ((nb, gc + move_cost st.eng nb) :: st.g_score) p =
          if p = nb then some (gc + move_cost st.eng nb) else assocFind st.g_score p :=
        fun p => rfl
      have hfind_cf : ∀ p, assocFind ((nb, c) :: st.came_from) p =
          if p = nb then some c else assocFind st.came_from p := fun p => rfl
      refine ⟨?_, hinv.start_vis, ?_, ?_, ?_, ?_, ?_, ?_, ?_, ?_,
        hinv.c_vis, hinv.c_opt, ?_, hinv.goal_unvis⟩
      · -- gstart
        rw [hfind_g, if_neg (by intro h; exact hnb_ne_start h.symm)]
        exact hinv.gstart
      · -- cf_start
        rw [hfind_cf, if_neg (by intro h; exact hnb_ne_start h.symm)]
        exact hinv.cf_start
      · -- link
        intro p gp hgp
        rw [hfind_g] at hgp
        by_cases hp : p = nb
        · rw [if_pos hp] at hgp
          injection hgp with hgp
          right
          refine ⟨c, gc, ?_, ?_, ?_, ?_⟩
          · rw [hfind_cf, if_pos hp]
          · rw [hfind_g, if_neg (by intro h; exact hnbc h.symm)]
            exact hinv.hgc
          · rw [hp]; exact ⟨hnb, hsafeT⟩
          · dsimp only
            rw [hp, ← hgp]
        · rw [if_neg hp] at hgp
          rcases hinv.link p gp hgp with h | ⟨q, gq, hcf, hgq, hstep, hle⟩
          · exact Or.inl h
          · right
            by_cases hq : q = nb
            · refine ⟨q, gc + move_cost st.eng nb, ?_, ?_, hstep, ?_⟩
              · rw [hfind_cf, if_neg hp]; exact hcf
              · rw [hfind_g, if_pos hq]
              · subst hq
                rw [improves, hgq] at himp
                have := of_decide_eq_true himp
                dsimp only
                omega
            · refine ⟨q, gq, ?_, ?_, hstep, hle⟩
              · rw [hfind_cf, if_neg hp]; exact hcf
              · rw [hfind_g, if_neg hq]; exact hgq
      · -- open_g
        intro x hx
        rcases List.mem_append.mp hx with hx | hx
        · obtain ⟨gv, hgv, hgvle⟩ := hinv.open_g x hx
          by_cases hxnb : x.2 = nb
          · refine ⟨gc + move_cost st.eng nb, ?_, ?_⟩
            · rw [hfind_g, if_pos hxnb]
            · rw [hxnb] at hgv hgvle ⊢
              rw [improves, hgv] at himp
              have := of_decide_eq_true himp
              dsimp only
              omega
          · exact ⟨gv, by rw [hfind_g, if_neg hxnb]; exact hgv, hgvle⟩
        · rw [List.mem_singleton.mp hx]
          exact ⟨gc + move_cost st.eng nb, by rw [hfind_g, if_pos rfl],
            Nat.le_refl _⟩
      · -- fringe
        intro p gp hgp
        rw [hfind_g] at hgp
        by_cases hp : p = nb
        · rw [if_pos hp] at hgp
          injection hgp with hgp
          right
          rw [hp, ← hgp]
          exact List.mem_append.mpr (Or.inr (List.mem_singleton.mpr rfl))
        · rw [if_neg hp] at hgp
          rcases hinv.fringe p gp hgp with h | h
          · exact Or.inl h
          · exact Or.inr (List.mem_append.mpr (Or.inl h))
      · -- vis_g
        intro v hv
        obtain ⟨gv, hgv⟩ := hinv.vis_g v hv
        by_cases hvnb : v = nb
        · exact absurd (hvnb ▸ hv) hnb_unvis
        · exact ⟨gv, by rw [hfind_g, if_neg hvnb]; exact hgv⟩
      · -- vis_opt
        intro v hv gv hgv P hP
        by_cases hvnb : v = nb
        · exact absurd (hvnb ▸ hv) hnb_unvis
        · rw [hfind_g, if_neg hvnb] at hgv
          exact hinv.vis_opt v hv gv hgv P hP
      · -- closed_old
        intro v hv hvc m hm hms
        obtain ⟨gn, gv, h1, h2, h3⟩ := hinv.closed_old v hv hvc m hm hms
        have hvnb : v ≠ nb := by
          intro h
          exact hnb_unvis (h ▸ hv)
        by_cases hmnb : m = nb
        · refine ⟨gc + move_cost st.eng nb, gv, ?_, ?_, ?_⟩
          · rw [hfind_g, if_pos hmnb]
          · rw [hfind_g, if_neg hvnb]; exact h2
          · subst hmnb
            rw [improves, h1] at himp
            have := of_decide_eq_true himp
            dsimp only
            omega
        · exact ⟨gn, gv, by rw [hfind_g, if_neg hmnb]; exact h1,
            by rw [hfind_g, if_neg hvnb]; exact h2, h3⟩
      · -- hgc
        rw [hfind_g, if_neg (by intro h; exact hnbc h.symm)]
        exact hinv.hgc
      · -- closed_c
        intro m hm hms
        rcases List.mem_append.mp hm with hm | hm
        · obtain ⟨gn, h1, h2⟩ := hinv.closed_c m hm hms
          by_cases hmnb : m = nb
          · refine ⟨gc + move_cost st.eng nb, ?_, ?_⟩
            · rw [hfind_g, if_pos hmnb]
            · dsimp only
              rw [hmnb]
          · exact ⟨gn, by rw [hfind_g, if_neg hmnb]; exact h1, h2⟩
        · rw [List.mem_singleton.mp hm]
          exact ⟨gc + move_cost st.eng nb, by rw [hfind_g, if_pos rfl],
            Nat.le_refl _⟩

/-- Folding the relaxation over a list of neighbors of `c` preserves the
relaxation invariant, accumulating the processed list. -/
theorem relaxInv_fold {c : Pos} {gc : Nat} :
    ∀ (l done : List Pos) (st : SearchState), RelaxInv c gc done st →
      (∀ nb ∈ l, nb ∈ get_neighbors st.eng c.1 c.2) →
      RelaxInv c gc (done ++ l) (l.foldl (processNeighbor c (some gc)) st) := by
  intro l
  induction l with
  | nil =>
    intro done st hinv hl
    rw [List.append_nil]
    exact hinv
  | cons nb rest ih =>
    intro done st hinv hl
    rw [List.foldl_cons]
    have hstep := relaxInv_step hinv (hl nb (List.mem_cons_self nb rest))
    have heng : (processNeighbor c (some gc) st nb).eng = st.eng :=
      processNeighbor_eng c (some gc) st nb
    have hrest : ∀ m ∈ rest, m ∈ get_neighbors
        (processNeighbor c (some gc) st nb).eng c.1 c.2 := by
      intro m hm
      rw [heng]
      exact hl m (List.mem_cons_of_mem nb hm)
    have := ih (done ++ [nb]) (processNeighbor c (some gc) st nb) hstep hrest
    rw [List.append_assoc] at this
    exact this

/-- After all neighbors of `c` are processed, the loop invariant is
restored. -/
theorem relaxInv_to_loopInv {c : Pos} {gc : Nat} {done : List Pos}
    {st : SearchState} (hinv : RelaxInv c gc done st)
    (hdone : ∀ nb ∈ get_neighbors st.eng c.1 c.2, nb ∈ done) : LoopInv st := by
  refine ⟨hinv.gstart, hinv.start_vis, hinv.cf_start, hinv.link, hinv.open_g,
    hinv.fringe, hinv.vis_g, hinv.vis_opt, ?_, hinv.goal_unvis⟩
  intro v hv nb hnb hsafe
  by_cases hvc : v = c
  · subst hvc
    obtain ⟨gn, h1, h2⟩ := hinv.closed_c nb (hdone nb hnb) hsafe
    exact ⟨gn, gc, h1, hinv.hgc, h2⟩
  · exact hinv.closed_old v hv hvc nb hnb hsafe

/-- Settling a freshly popped non-goal cell establishes the relaxation
invariant with an empty processed list. -/
theorem loopInv_settle {st : SearchState} (hinv : LoopInv st) {e : Entry}
    {rest : List Entry} (hpop : popMin st.open_set = some (e, rest))
    (hv : e.2 ∉ st.visited) (hgoal : e.2 ≠ st.eng.goal) {gc : Nat}
    (hgc : assocFind st.g_score e.2 = some gc)
    (hopt : ∀ P, SafeChain st.eng e.2 P → gc ≤ chainCost st.eng P) :
    RelaxInv e.2 gc []
      { st with open_set := rest
              , visited := e.2 :: st.visited
              , explored := st.explored + 1 } := by
  obtain ⟨hmem, hmin, hrest⟩ := popMin_spec hpop
  refine ⟨hinv.gstart, List.mem_cons_of_mem _ hinv.start_vis, hinv.cf_start,
    hinv.link, ?_, ?_, ?_, ?_, ?_, hgc, List.mem_cons_self _ _, hopt, ?_, ?_⟩
  · -- open_g over rest
    intro x hx
    refine hinv.open_g x ?_
    rw [hrest] at hx
    exact List.mem_of_mem_erase hx
  · -- fringe
    intro p gp hgp
    rcases hinv.fringe p gp hgp with h | h
    · exact Or.inl (List.mem_cons_of_mem _ h)
    · by_cases hpe : p = e.2
      · exact Or.inl (by rw [hpe]; exact List.mem_cons_self _ _)
      · right
        rw [hrest]
        refine mem_erase_of_ne_of_mem ?_ h
        intro hcontra
        apply hpe
        have := congrArg Prod.snd hcontra
        exact this
  · -- vis_g
    intro v hv'
    rcases List.mem_cons.mp hv' with rfl | hv'
    · exact ⟨gc, hgc⟩
    · exact hinv.vis_g v hv'
  · -- vis_opt
    intro v hv' gv hgv P hP
    rcases List.mem_cons.mp hv' with rfl | hv'
    · rw [hgc] at hgv
      injection hgv with hgv
      rw [← hgv]
      exact hopt P hP
    · exact hinv.vis_opt v hv' gv hgv P hP
  · -- closed_old
    intro v hv' hvc nb hnb hsafe
    rcases List.mem_cons.mp hv' with rfl | hv'
    · exact absurd rfl hvc
    · exact hinv.closed v hv' nb hnb hsafe
  · -- closed_c: nothing processed yet
    intro m hm
    exact absurd hm (List.not_mem_nil m)
  · -- goal not visited
    intro hcontra
    rcases List.mem_cons.mp hcontra with h | h
    · exact hgoal h.symm
    · exact hinv.goal_unvis h

/-- One full settle-and-relax iteration preserves the loop invariant. -/
theorem loopInv_relax_preserved {st : SearchState} (hinv : LoopInv st)
    {e : Entry} {rest : List Entry}
    (hpop : popMin st.open_set = some (e, rest)) (hv : e.2 ∉ st.visited)
    (hgoal : e.2 ≠ st.eng.goal) :
    LoopInv ((get_neighbors st.eng e.2.1 e.2.2).foldl
      (processNeighbor e.2 (assocFind st.g_score e.2))
      { st with open_set := rest
              , visited := e.2 :: st.visited
              , explored := st.explored + 1 }) := by
  obtain ⟨gc, hgc, hopt⟩ := loopInv_pop_optimal hinv hpop hv
  have hsettle := loopInv_settle hinv hpop hv hgoal hgc hopt
  rw [hgc]
  have hfold := relaxInv_fold (get_neighbors st.eng e.2.1 e.2.2) []
    { st with open_set := rest
            , visited := e.2 :: st.visited
            , explored := st.explored + 1 }
    hsettle (fun nb hnb => hnb)
  rw [List.nil_append] at hfold
  refine relaxInv_to_loopInv hfold ?_
  intro nb hnb
  have heng : ((get_neighbors st.eng e.2.1 e.2.2).foldl
      (processNeighbor e.2 (some gc))
      { st with open_set := rest
              , visited := e.2 :: st.visited
              , explored := st.explored + 1 }).eng = st.eng :=
    foldl_processNeighbor_eng _ _ _ _
  rw [heng] at hnb
  exact hnb

/-- Discarding a stale entry preserves the loop invariant. -/
theorem loopInv_stale_preserved {st : SearchState} (hinv : LoopInv st)
    {e : Entry} {rest : List Entry}
    (hpop : popMin st.open_set = some (e, rest)) (hv : e.2 ∈ st.visited) :
    LoopInv { st with open_set := rest } := by
  obtain ⟨hmem, hmin, hrest⟩ := popMin_spec hpop
  refine ⟨hinv.gstart, hinv.start_vis, hinv.cf_start, hinv.link, ?_, ?_,
    hinv.vis_g, hinv.vis_opt, hinv.closed, hinv.goal_unvis⟩
  · intro x hx
    refine hinv.open_g x ?_
    rw [hrest] at hx
    exact List.mem_of_mem_erase hx
  · intro p gp hgp
    by_cases hpv : p ∈ st.visited
    · exact Or.inl hpv
    · rcases hinv.fringe p gp hgp with h | h
      · exact Or.inl h
      · right
        rw [hrest]
        refine mem_erase_of_ne_of_mem ?_ h
        intro hcontra
        apply hpv
        have h2 : p = e.2 := congrArg Prod.snd hcontra
        rw [h2]
        exact hv

/-- Main partial-correctness statement of the search loop: under the
invariant, an empty returned path certifies that no safe chain reaches the
goal, and a non-empty one is itself a safe chain to the goal of minimal
cost. -/
theorem aStarLoop_correct :
    ∀ (fuel : Nat) (st : SearchState) (r : SearchResult) (st' : SearchState),
      LoopInv st → aStarLoop fuel st = some (r, st') →
      (r.path = [] → ∀ Q, ¬ SafeChain st.eng st.eng.goal Q) ∧
      (r.path ≠ [] → SafeChain st.eng st.eng.goal r.path ∧
        ∀ Q, SafeChain st.eng st.eng.goal Q →
          chainCost st.eng r.path ≤ chainCost st.eng Q) := by
  intro fuel
  induction fuel with
  | zero => intro st r st' hinv h; exact absurd h (by simp [aStarLoop])
  | succ fuel ih =>
    intro st r st' hinv h
    cases hpop : popMin st.open_set with
    | none =>
      rw [aStarLoop_none fuel st hpop] at h
      simp only [Option.some.injEq, Prod.mk.injEq] at h
      obtain ⟨hr, -⟩ := h
      constructor
      · intro _ Q hQ
        have hopen : st.open_set = [] := popMin_nil_iff.mp hpop
        have := loopInv_empty_all_visited hinv hopen st.eng.goal Q hQ
        exact hinv.goal_unvis this.1
      · intro hne
        rw [← hr] at hne
        exact absurd rfl hne
    | some epair =>
      obtain ⟨e, rest⟩ := epair
      by_cases hv : e.2 ∈ st.visited
      · rw [aStarLoop_stale fuel st hpop hv] at h
        have h2 := ih _ r st' (loopInv_stale_preserved hinv hpop hv) h
        exact h2
      · by_cases hgoal : e.2 = st.eng.goal
        · rw [aStarLoop_goal fuel st hpop hv hgoal] at h
          simp only [Option.some.injEq, Prod.mk.injEq] at h
          obtain ⟨hr, -⟩ := h
          obtain ⟨gc, hgc, hopt⟩ := loopInv_pop_optimal hinv hpop hv
          obtain ⟨ch, hch⟩ := linkChain_exists st.eng hinv.gstart hinv.cf_start
            hinv.link gc e.2 hgc
          have hpath : r.path = ch := by
            rw [← hr]
            exact reconstruct_path_eq hch
          constructor
          · intro hnil Q hQ
            rw [hpath] at hnil
            exact hch.safeChain.ne_nil hnil
          · intro hne
            rw [hpath]
            constructor
            · rw [← hgoal]
              exact hch.safeChain
            · intro Q hQ
              rw [← hgoal] at hQ
              calc chainCost st.eng ch ≤ gc := hch.cost_le
                _ ≤ chainCost st.eng Q := hopt Q hQ
        · rw [aStarLoop_relax fuel st hpop hv hgoal] at h
          have hinv2 := loopInv_relax_preserved hinv hpop hv hgoal
          have h2 := ih _ r st' hinv2 h
          have heng : ((get_neighbors st.eng e.2.1 e.2.2).foldl
              (processNeighbor e.2 (assocFind st.g_score e.2))
              { st with open_set := rest
                      , visited := e.2 :: st.visited
                      , explored := st.explored + 1 }).eng = st.eng := by
            rw [foldl_processNeighbor_eng]
          rw [heng] at h2
          exact h2

theorem initState_g_start (eng : Engine) :
    assocFind (initState eng).g_score eng.start = some 0 := by
  simp [initState, assocFind]

theorem popMin_singleton (e : Entry) : popMin [e] = some (e, []) := by
  rw [popMin]
  simp [findMinEntry]

theorem reconstruct_path_nil (p : Pos) : reconstruct_path [] p = [p] := rfl

/-- After the start is settled and its neighbors are about to be relaxed,
the relaxation invariant holds (the start has score 0 and every chain costs
at least 0, so its settling is trivially optimal). -/
theorem initRelaxInv (eng : Engine) (hsg : eng.start ≠ eng.goal) :
    RelaxInv eng.start 0 []
      { eng := eng, open_set := [], came_from := []
      , g_score := [(eng.start, 0)]
      , f_score := [(eng.start, heuristic eng eng.start)]
      , explored := 1, pruned := 0, visited := [eng.start] } := by
  have hfind : ∀ p gp, assocFind [(eng.start, (0 : Nat))] p = some gp →
      p = eng.start ∧ gp = 0 := by
    intro p gp hp
    rw [assocFind_cons] at hp
    by_cases hpe : p = eng.start
    · rw [if_pos hpe] at hp
      injection hp with hp
      exact ⟨hpe, hp.symm⟩
    · rw [if_neg hpe] at hp
      exact absurd hp (by simp [assocFind])
  refine ⟨?_, ?_, rfl, ?_, ?_, ?_, ?_, ?_, ?_, ?_, ?_, ?_, ?_, ?_⟩
  · simp [assocFind]
  · exact List.mem_singleton.mpr rfl
  · intro p gp hp
    exact Or.inl (hfind p gp hp).1
  · intro x hx
    exact absurd hx (List.not_mem_nil x)
  · intro p gp hp
    exact Or.inl (by rw [(hfind p gp hp).1]; exact List.mem_singleton.mpr rfl)
  · intro v hv
    rw [List.mem_singleton.mp hv]
    exact ⟨0, by simp [assocFind]⟩
  · intro v hv gv hgv P hP
    rw [(hfind v gv hgv).2]
    exact Nat.zero_le _
  · intro v hv hvc
    exact absurd (List.mem_singleton.mp hv) hvc
  · simp [assocFind]
  · exact List.mem_singleton.mpr rfl
  · intro P hP
    exact Nat.zero_le _
  · intro m hm
    exact absurd hm (List.not_mem_nil m)
  · intro hcontra
    exact hsg (List.mem_singleton.mp hcontra).symm

/-- Full specification of `a_star_search`: it returns, an empty path means
no safety-respecting route to the goal exists, and a returned path is a
safety-respecting route from the start to the goal of minimal total
movement cost. -/
theorem a_star_search_spec (eng : Engine) :
    ∃ r st', a_star_search_full eng = some (r, st') ∧
      (r.path = [] → ∀ Q, ¬ SafeChain eng eng.goal Q) ∧
      (r.path ≠ [] → SafeChain eng eng.goal r.path ∧
        ∀ Q, SafeChain eng eng.goal Q →
          chainCost eng r.path ≤ chainCost eng Q) := by
  have hterm := a_star_search_terminates eng
  rw [a_star_search] at hterm
  cases hfull : a_star_search_full eng with
  | none => rw [hfull] at hterm; exact absurd hterm (by simp)
  | some rp =>
    obtain ⟨r, st'⟩ := rp
    refine ⟨r, st', rfl, ?_⟩
    have hfuel : fuelBound eng =
        (5 * (eng.gridSize * eng.gridSize + 1) + 1) + 1 := rfl
    rw [a_star_search_full, hfuel] at hfull
    have hpop : popMin (initState eng).open_set =
        some (((0 : Nat), eng.start), []) :=
      popMin_singleton ((0 : Nat), eng.start)
    have hv : (((0 : Nat), eng.start) : Entry).2 ∉ (initState eng).visited :=
      List.not_mem_nil eng.start
    by_cases hsg : eng.start = eng.goal
    · rw [aStarLoop_goal _ (initState eng) hpop hv hsg] at hfull
      simp only [Option.some.injEq, Prod.mk.injEq] at hfull
      obtain ⟨hr, -⟩ := hfull
      have hpath : r.path = [eng.start] := by
        rw [← hr]
        exact reconstruct_path_nil eng.start
      constructor
      · intro hnil
        rw [hpath] at hnil
        exact absurd hnil (by simp)
      · intro _
        constructor
        · rw [hpath, ← hsg]
          exact SafeChain.base
        · intro Q hQ
          rw [hpath]
          exact Nat.zero_le _
    · rw [aStarLoop_relax _ (initState eng) hpop hv hsg] at hfull
      rw [show assocFind (initState eng).g_score
          (((0 : Nat), eng.start) : Entry).2 = some 0
        from initState_g_start eng] at hfull
      have hrelax := initRelaxInv eng hsg
      have hfold := relaxInv_fold
        (get_neighbors eng eng.start.1 eng.start.2) []
        { eng := eng, open_set := [], came_from := []
        , g_score := [(eng.start, 0)]
        , f_score := [(eng.start, heuristic eng eng.start)]
        , explored := 1, pruned := 0, visited := [eng.start] }
        hrelax (fun nb hnb => hnb)
      rw [List.nil_append] at hfold
      have hloopinv := relaxInv_to_loopInv hfold ?hdone
      case hdone =>
        intro nb hnb
        have heng : ((get_neighbors eng eng.start.1 eng.start.2).foldl
            (processNeighbor eng.start (some 0))
            { eng := eng, open_set := [], came_from := []
            , g_score := [(eng.start, 0)]
            , f_score := [(eng.start, heuristic eng eng.start)]
            , explored := 1, pruned := 0, visited := [eng.start] }).eng = eng :=
          foldl_processNeighbor_eng _ _ _ _
        rw [heng] at hnb
        exact hnb
      have hcorr := aStarLoop_correct _ _ r st' hloopinv hfull
      have heng : ((get_neighbors eng eng.start.1 eng.start.2).foldl
          (processNeighbor eng.start (some 0))
          { eng := eng, open_set := [], came_from := []
          , g_score := [(eng.start, 0)]
          , f_score := [(eng.start, heuristic eng eng.start)]
          , explored := 1, pruned := 0, visited := [eng.start] }).eng = eng :=
        foldl_processNeighbor_eng _ _ _ _
      rw [heng] at hcorr
      exact hcorr

/-- C1: on every square grid on which some safety-respecting 4-directional
path from start to goal exists, `a_star_search` returns a non-empty path,
and no path from start to goal whose every cell after the first satisfies
`is_safe_path` has strictly lower total movement cost (2 per `DANGEROUS`
cell entered, 1 otherwise).  The squareness hypothesis mirrors the claim;
the proof does not depend on it. -/
theorem a_star_search_cost_optimal (g : Grid) (hsq : SquareGrid g)
    (P : List Pos)
    (hP : SafeChain (engineOfGrid g) (engineOfGrid g).goal P) :
    ∃ r, a_star_search (engineOfGrid g) = some r ∧ r.path ≠ [] ∧
      ∀ Q, SafeChain (engineOfGrid g) (engineOfGrid g).goal Q →
        chainCost (engineOfGrid g) r.path ≤ chainCost (engineOfGrid g) Q := by
  obtain ⟨r, st', hfull, hempty, hne⟩ := a_star_search_spec (engineOfGrid g)
  have hsearch : a_star_search (engineOfGrid g) = some r := by
    rw [a_star_search, hfull]
    rfl
  have hrne : r.path ≠ [] := by
    intro hnil
    exact hempty hnil P hP
  obtain ⟨hchain, hopt⟩ := hne hrne
  exact ⟨r, hsearch, hrne, hopt⟩

theorem a_star_search_cost_optimal_witness :
    SquareGrid [[0, 0], [0, 0]] ∧
    SafeChain (engineOfGrid [[0, 0], [0, 0]]) (engineOfGrid [[0, 0], [0, 0]]).goal
      [((0 : Int), (0 : Int)), (0, 1), (1, 1)] ∧
    (∃ r, a_star_search (engineOfGrid [[0, 0], [0, 0]]) = some r ∧ r.path ≠ [] ∧
      ∀ Q, SafeChain (engineOfGrid [[0, 0], [0, 0]])
          (engineOfGrid [[0, 0], [0, 0]]).goal Q →
        chainCost (engineOfGrid [[0, 0], [0, 0]]) r.path ≤
          chainCost (engineOfGrid [[0, 0], [0, 0]]) Q) := by
  have hch : SafeChain (engineOfGrid [[0, 0], [0, 0]])
      (engineOfGrid [[0, 0], [0, 0]]).goal
      [((0 : Int), (0 : Int)), (0, 1), (1, 1)] := by
    exact @SafeChain.cons (engineOfGrid [[0, 0], [0, 0]]) ((0 : Int), (1 : Int))
      ((1 : Int), (1 : Int)) [((0 : Int), (0 : Int)), (0, 1)]
      (@SafeChain.cons (engineOfGrid [[0, 0], [0, 0]]) ((0 : Int), (0 : Int))
        ((0 : Int), (1 : Int)) [((0 : Int), (0 : Int))]
        SafeChain.base (by decide) (by decide))
      (by decide) (by decide)
  exact ⟨by decide, hch,
    a_star_search_cost_optimal [[0, 0], [0, 0]] (by decide) _ hch⟩

/-- C10: the safety predicate is never evaluated on the start cell.  Every
returned non-empty path has each cell after the first satisfying
`is_safe_path`, but the first cell is exempt: on the externally supplied
grid `[[1,0],[0,0]]`, whose start cell `(0,0)` is a `TRAP` (and fails
`is_safe_path`), `a_star_search` still expands from the start and returns
the non-empty path `[(0,0),(0,1),(1,1)]` whose first cell is a trap. -/
theorem start_exempt_from_safety :
    (∀ (eng : Engine) (r : SearchResult), a_star_search eng = some r →
      r.path ≠ [] → ∀ q ∈ r.path.tail, is_safe_path eng q.1 q.2 = true) ∧
    ((a_star_search (engineOfGrid [[1, 0], [0, 0]])).map (fun r => r.path) =
        some [((0 : Int), (0 : Int)), (0, 1), (1, 1)] ∧
      cellAt [[1, 0], [0, 0]] 0 0 = TRAP ∧
      is_safe_path (engineOfGrid [[1, 0], [0, 0]]) 0 0 = false) := by
  constructor
  · intro eng r hsearch hne
    obtain ⟨r', st', hfull, hempty, hnonempty⟩ := a_star_search_spec eng
    have hr : r' = r := by
      rw [a_star_search, hfull] at hsearch
      simpa using hsearch
    subst hr
    obtain ⟨hchain, -⟩ := hnonempty hne
    exact hchain.tail_safe
  · exact ⟨rfl, rfl, rfl⟩

theorem start_exempt_from_safety_witness :
    a_star_search (engineOfGrid [[1, 0], [0, 0]]) =
      some ({ path := [((0 : Int), (0 : Int)), (0, 1), (1, 1)]
            , visited := [(1, 1), (1, 0), (0, 1), (0, 0)]
            , explored := 4, pruned := 2, path_length := 3 } : SearchResult) ∧
    (∀ q ∈ ([((0 : Int), (0 : Int)), (0, 1), (1, 1)] : List Pos).tail,
      is_safe_path (engineOfGrid [[1, 0], [0, 0]]) q.1 q.2 = true) :=
  ⟨by decide,
    start_exempt_from_safety.1 (engineOfGrid [[1, 0], [0, 0]])
      ({ path := [((0 : Int), (0 : Int)), (0, 1), (1, 1)]
       , visited := [(1, 1), (1, 0), (0, 1), (0, 0)]
       , explored := 4, pruned := 2, path_length := 3 } : SearchResult)
      (by decide) (by decide)⟩

end MarioTrapAvoidance
